import Mathlib

/-!
# Verification of the crondst library (`src/crondst/__init__.py`)

This file gives a shallow embedding, in Lean 4, of the crondst cron-expression
library: the expression parser (`_CronEntry.from_expression`), the feasibility
check (`has_triggers`), the day / day-of-week merge
(`merge_days_and_days_of_week`), the binary search helper
(`_index_of_nearest_number`), the naive wallclock search
(`_next_wallclock_datetime`) and the DST-aware iterator (`CronDst.iter`).

Machine integers of the source are modelled as `Nat` / `Int` (Python integers
are unbounded, so no wrap-around modelling is needed).  Python exceptions are
modelled with `Except String`.  The host calendar engine (Python `datetime`)
is modelled by explicit proleptic-Gregorian arithmetic; the `tzinfo` /
timestamp contract is modelled by an explicit `Tz` structure carrying the
UTC-offset function and the `fromtimestamp` localization function.

`while` / `for` loops of the source are modelled by structurally recursive
functions; loops whose iteration count is not the recursion argument carry an
explicit fuel that provably dominates the real iteration count.
-/

/-! ## Calendar arithmetic (host engine: proleptic Gregorian, as in Python `datetime`) -/

/-- Proleptic-Gregorian leap-year rule, as implemented by Python `datetime`. -/
def isLeapYear (y : ℕ) : Bool := y % 4 == 0 && (y % 100 != 0 || y % 400 == 0)

/-- Month lengths, January first. -/
def monthLengths (leap : Bool) : List ℕ :=
  [31, if leap then 29 else 28, 31, 30, 31, 30, 31, 31, 30, 31, 30, 31]

/-- Number of days in month `mo` (1-12) of year `y`; models `_days_in_month`
(which obtains the same value through `datetime` arithmetic). -/
def daysInMonth (y mo : ℕ) : ℕ := (monthLengths (isLeapYear y)).getD (mo - 1) 0

/-- Cumulative day counts before each month in a non-leap year. -/
def daysBeforeMonthTable : List ℕ :=
  [0, 31, 59, 90, 120, 151, 181, 212, 243, 273, 304, 334]

/-- Days in year `y` strictly before month `mo`. -/
def daysBeforeMonth (y mo : ℕ) : ℕ :=
  daysBeforeMonthTable.getD (mo - 1) 0 + (if 3 ≤ mo ∧ isLeapYear y then 1 else 0)

/-- Days from 0001-01-01 (day 0, a Monday) to the given civil date,
proleptic Gregorian.  Equals Python `date.toordinal() - 1`. -/
def dayNumber (y mo d : ℕ) : ℕ :=
  365 * (y - 1) + (y - 1) / 4 - (y - 1) / 100 + (y - 1) / 400 + daysBeforeMonth y mo + (d - 1)

/-- Weekday with Monday = 0, as Python `datetime.weekday()`. -/
def weekdayMon0 (y mo d : ℕ) : ℕ := dayNumber y mo d % 7

/-- Weekday in the cron convention Sunday = 0 (0001-01-01 is a Monday,
hence weekday 1). -/
def weekdaySun0 (y mo d : ℕ) : ℕ := (dayNumber y mo d + 1) % 7

/-! ## Naive civil datetimes (minute granularity, as used by the wallclock search) -/

/-- A naive civil timestamp at minute granularity: the five fields of a
Python `datetime` that `_next_wallclock_datetime` reads and writes. -/
structure NDt where
  year : ℕ
  month : ℕ
  day : ℕ
  hour : ℕ
  minute : ℕ
deriving DecidableEq, Repr

/-- Validity of a civil datetime, as guaranteed by the Python `datetime`
constructor (the year upper bound 9999 is not modelled). -/
def NDt.Valid (t : NDt) : Prop :=
  1 ≤ t.year ∧ 1 ≤ t.month ∧ t.month ≤ 12 ∧ 1 ≤ t.day ∧
    t.day ≤ daysInMonth t.year t.month ∧ t.hour ≤ 23 ∧ t.minute ≤ 59

instance (t : NDt) : Decidable t.Valid := by unfold NDt.Valid; infer_instance

/-- A numeric key that realizes the lexicographic (chronological) order on the
five civil fields, for all field values that arise in the search (month up to
13, day up to 32, hour up to 24, minute up to 60). -/
def NDt.key (t : NDt) : ℕ :=
  (((t.year * 14 + t.month) * 33 + t.day) * 25 + t.hour) * 61 + t.minute

/-- Linearized month index, used to measure the progress of the month loop. -/
def NDt.monthLinear (t : NDt) : ℕ := 12 * t.year + t.month

/-! ## String primitives (modelled structurally on `List Char` so that every
concrete evaluation reduces in the kernel) -/

/-- Strip leading and trailing whitespace (Python `str.strip`, as applied by
`int()`). -/
def chTrim (l : List Char) : List Char :=
  ((l.dropWhile Char.isWhitespace).reverse.dropWhile Char.isWhitespace).reverse

/-- Worker for `chSplitOn`. -/
def chSplitOnGo (sep : Char) : List Char → List Char → List (List Char)
  | [], cur => [cur.reverse]
  | c :: rest, cur =>
    if c = sep then cur.reverse :: chSplitOnGo sep rest []
    else chSplitOnGo sep rest (c :: cur)

/-- Python `str.split(sep)` for a one-character separator. -/
def chSplitOn (sep : Char) (l : List Char) : List (List Char) := chSplitOnGo sep l []

/-- Worker for `chSplitOnce`. -/
def chSplitOnceGo (sep : Char) : List Char → List Char → List Char × Option (List Char)
  | [], cur => (cur.reverse, none)
  | c :: rest, cur =>
    if c = sep then (cur.reverse, some rest)
    else chSplitOnceGo sep rest (c :: cur)

/-- Python `str.split(sep, maxsplit=1)` for a one-character separator: the
part before the first separator, and the remainder when a separator occurs. -/
def chSplitOnce (sep : Char) (l : List Char) : List Char × Option (List Char) :=
  chSplitOnceGo sep l []

/-- Worker for `chSplitWs`. -/
def chSplitWsGo : List Char → List Char → List (List Char)
  | [], cur => if cur = [] then [] else [cur.reverse]
  | c :: rest, cur =>
    if c.isWhitespace then
      if cur = [] then chSplitWsGo rest [] else cur.reverse :: chSplitWsGo rest []
    else chSplitWsGo rest (c :: cur)

/-- Python `str.split()` with no argument: split on whitespace runs,
discarding empty pieces (`expression.strip().split()`). -/
def chSplitWs (l : List Char) : List (List Char) := chSplitWsGo l []

/-! ## Python `int()` parsing (the fragment reachable from cron fields) -/

/-- Digit-string value accumulator: accepts decimal digits with single
underscores between digits, as Python `int` does. -/
def pyDigitsGo : List Char → ℕ → Option ℕ
  | [], acc => some acc
  | c :: rest, acc =>
    if c.isDigit then pyDigitsGo rest (acc * 10 + (c.toNat - 48))
    else if c = '_' then
      match rest with
      | d :: rest2 =>
        if d.isDigit then pyDigitsGo rest2 (acc * 10 + (d.toNat - 48)) else none
      | [] => none
    else none

/-- Model of Python `int(s)` on decimal strings: optional surrounding
whitespace, optional sign, digits with underscore separators.
(Non-ASCII digits accepted by Python are not modelled.) -/
def pyInt? (s : List Char) : Option ℤ :=
  match chTrim s with
  | '+' :: c :: rest =>
    if c.isDigit then (pyDigitsGo rest (c.toNat - 48)).map (fun n => (n : ℤ)) else none
  | '-' :: c :: rest =>
    if c.isDigit then (pyDigitsGo rest (c.toNat - 48)).map (fun n => -(n : ℤ)) else none
  | c :: rest =>
    if c.isDigit then (pyDigitsGo rest (c.toNat - 48)).map (fun n => (n : ℤ)) else none
  | [] => none

/-- Python `range(a, b + 1, step)` for a natural lower bound, inclusive upper
bound `b` and positive step. -/
def pyRange (a b step : ℕ) : List ℕ :=
  if a ≤ b then List.range' a ((b - a) / step + 1) step else []

/-! ## The field catalog (`FIELD_PROPS`) -/

/-- One entry of `FIELD_PROPS`: field name, inclusive bounds, alias map. -/
structure CronFieldSpec where
  name : String
  lo : ℕ
  hi : ℕ
  text_map : List (String × ℕ)
deriving Repr

def minuteSpec : CronFieldSpec := ⟨"minute", 0, 59, []⟩
def hourSpec : CronFieldSpec := ⟨"hour", 0, 23, []⟩
def dayOfMonthSpec : CronFieldSpec := ⟨"day-of-month", 1, 31, []⟩
def monthSpec : CronFieldSpec :=
  ⟨"month", 1, 12,
    [("jan", 1), ("feb", 2), ("mar", 3), ("apr", 4), ("may", 5), ("jun", 6),
     ("jul", 7), ("aug", 8), ("sep", 9), ("oct", 10), ("nov", 11), ("dec", 12)]⟩
def dayOfWeekSpec : CronFieldSpec :=
  ⟨"day-of-week", 0, 7,
    [("sun", 0), ("mon", 1), ("tue", 2), ("wed", 3), ("thu", 4), ("fri", 5), ("sat", 6)]⟩

/-- The five field definitions, in field order. -/
def FIELD_PROPS : List CronFieldSpec :=
  [minuteSpec, hourSpec, dayOfMonthSpec, monthSpec, dayOfWeekSpec]

/-- Alias-map lookup (Python `dict.get`). -/
def chLookup (tmap : List (String × ℕ)) (item : List Char) : Option ℕ :=
  match tmap with
  | [] => none
  | (k, v) :: rest => if item = k.toList then some v else chLookup rest item

/-- `_number_from_item`: try `int(item)` first, then the alias map. -/
def number_from_item (item : List Char) (tmap : List (String × ℕ)) : Option ℤ :=
  match pyInt? item with
  | some n => some n
  | none => (chLookup tmap item).map (fun n => (n : ℤ))

/-! ## The parsed schedule (`_CronEntry`) -/

/-- The parsed schedule: five ascending value lists plus the four
wildcard-marker booleans. -/
structure CronEntry where
  minutes : List ℕ
  hours : List ℕ
  days : List ℕ
  months : List ℕ
  days_of_week : List ℕ
  minute_star : Bool
  hour_star : Bool
  day_star : Bool
  day_of_week_star : Bool
deriving DecidableEq, Repr

/-- Longest possible month lengths used by `has_triggers`
(February counted as 29 days). -/
def max_day_of_month : List ℕ := [31, 29, 31, 30, 31, 30, 31, 31, 30, 31, 30, 31]

/-- `_CronEntry.has_triggers`. -/
def CronEntry.has_triggers (e : CronEntry) : Bool :=
  if e.day_of_week_star then
    if (e.months.map (fun m => max_day_of_month.getD (m - 1) 0)).foldr max 0 < e.days.getLastD 0
    then false
    else true
  else true

/-- `_CronEntry.is_wildcard`. -/
def CronEntry.is_wildcard (e : CronEntry) : Bool := e.minute_star || e.hour_star

/-- The day-of-week set with alias `Sun = 7` folded into `Sun = 0`
(`set([0, *days_of_week]) if 7 in days_of_week else ...`, membership-wise). -/
def dowFoldSet (l : List ℕ) : List ℕ := if 7 ∈ l then 0 :: l else l

/-- The body condition of the day loop: the two mutually exclusive `if`
statements of the source append `day` exactly when this holds. -/
def mergeKeep (daysL dowL : List ℕ) (useAnd : Bool) (day wk2 : ℕ) : Prop :=
  if useAnd then day ∈ daysL ∧ wk2 ∈ dowL else day ∈ daysL ∨ wk2 ∈ dowL

instance (daysL dowL : List ℕ) (useAnd : Bool) (day wk2 : ℕ) :
    Decidable (mergeKeep daysL dowL useAnd day wk2) := by
  unfold mergeKeep; infer_instance

/-- The day loop of `merge_days_and_days_of_week`: `n` remaining days,
current day `day`, running pre-increment weekday accumulator `wk`. -/
def mergeLoop (daysL dowL : List ℕ) (useAnd : Bool) : ℕ → ℕ → ℕ → List ℕ
  | 0, _, _ => []
  | n + 1, day, wk =>
    let wk2 := (wk + 1) % 7
    let rest := mergeLoop daysL dowL useAnd n (day + 1) wk2
    if mergeKeep daysL dowL useAnd day wk2 then day :: rest else rest

/-- `_CronEntry.merge_days_and_days_of_week`.  The Python method receives a
`datetime` but reads only its year and month, which are passed explicitly
here; `useAndOpt = none` models the omitted keyword argument. -/
def CronEntry.merge_days_and_days_of_week
    (e : CronEntry) (year month : ℕ) (useAndOpt : Option Bool) : List ℕ :=
  let use_and_operator := useAndOpt.getD (e.day_star || e.day_of_week_star)
  mergeLoop e.days (dowFoldSet e.days_of_week) use_and_operator
    (daysInMonth year month) 1 (weekdayMon0 year month 1)

/-! ## Binary search (`_index_of_nearest_number`) -/

/-- The `while low + 1 < high` loop of `_index_of_nearest_number`, with an
explicit fuel that dominates the iteration count (`high - low` shrinks by at
least one per iteration, so `numbers.length + 1` iterations always suffice). -/
def ionGo {α : Type} [LinearOrder α] (numbers : List α) (target : α) :
    ℕ → ℤ → ℤ → ℤ
  | 0, _, high => high
  | fuel + 1, low, high =>
    if low + 1 < high then
      let mid := low + (high - low) / 2
      if target ≤ numbers.getD mid.toNat target then
        ionGo numbers target fuel low mid
      else
        ionGo numbers target fuel mid high
    else high

/-- `_index_of_nearest_number`: binary search for the insertion point of
`target` in the ascending list `numbers`. -/
def index_of_nearest_number {α : Type} [LinearOrder α] (numbers : List α) (target : α) : ℤ :=
  ionGo numbers target (numbers.length + 1) (-1) (numbers.length : ℤ)

/-! ## The naive wallclock search (`_next_wallclock_datetime`) -/

/-- The running candidate of `_next_wallclock_datetime`: the five `next_*`
variables plus `is_placeholder_day`. -/
structure LoopSt where
  y : ℕ
  mo : ℕ
  d : ℕ
  h : ℕ
  mi : ℕ
  ph : Bool
deriving DecidableEq, Repr

/-- The `for _ in range(max(max_years_between_matches, 0) * 12)` month loop of
`_next_wallclock_datetime`, with the remaining iteration count as fuel. -/
def monthLoop (e : CronEntry) (start : NDt) : ℕ → LoopSt → Option NDt
  | 0, _ => none
  | fuel + 1, s =>
    let months := e.months
    let idx := index_of_nearest_number months s.mo
    let s1 : LoopSt :=
      if idx < (months.length : ℤ) then
        let m2 := months.getD idx.toNat 0
        if m2 ≠ start.month then
          ⟨s.y, m2, 1, e.hours.headD 0, e.minutes.headD 0, true⟩
        else
          ⟨s.y, m2, s.d, s.h, s.mi, s.ph⟩
      else
        ⟨s.y + 1, months.headD 0, 1, e.hours.headD 0, e.minutes.headD 0, true⟩
    if s1.ph then
      match e.merge_days_and_days_of_week s1.y s1.mo none with
      | [] => monthLoop e start fuel ⟨s1.y, s1.mo + 1, s1.d, s1.h, s1.mi, s1.ph⟩
      | d0 :: _ => some ⟨s1.y, s1.mo, d0, s1.h, s1.mi⟩
    else some ⟨s1.y, s1.mo, s1.d, s1.h, s1.mi⟩

/-- The minute and hour stages of `_next_wallclock_datetime`: given the
start, produce `(next_minute, next_hour, next_day)`. -/
def hmStage (start : NDt) (e : CronEntry) : ℕ × ℕ × ℕ :=
  let minutes := e.minutes
  let hours := e.hours
  -- minutes stage
  let p1 : ℕ × ℕ :=
    let idx := index_of_nearest_number minutes (start.minute + 1)
    if idx < (minutes.length : ℤ) then (minutes.getD idx.toNat 0, start.hour)
    else (minutes.headD 0, start.hour + 1)
  -- hours stage
  let idx := index_of_nearest_number hours p1.2
  if idx < (hours.length : ℤ) then
    let h := hours.getD idx.toNat 0
    if h ≠ start.hour then (minutes.headD 0, h, start.day)
    else (p1.1, h, start.day)
  else (minutes.headD 0, hours.headD 0, start.day + 1)

/-- The minute / hour / day cascade of `_next_wallclock_datetime`
(lines before the month loop), producing the initial loop state. -/
def preMonthState (start : NDt) (e : CronEntry) : LoopSt :=
  let p2 := hmStage start e
  -- days / days-of-week stage (merge computed from start's month)
  let dd := e.merge_days_and_days_of_week start.year start.month none
  let idx := index_of_nearest_number dd p2.2.2
  if idx < (dd.length : ℤ) then
    let d := dd.getD idx.toNat 0
    if d ≠ start.day then
      ⟨start.year, start.month, d, e.hours.headD 0, e.minutes.headD 0, false⟩
    else ⟨start.year, start.month, d, p2.2.1, p2.1, false⟩
  else ⟨start.year, start.month + 1, 1, e.hours.headD 0, e.minutes.headD 0, true⟩

/-- `_next_wallclock_datetime(start, entry, max_years_between_matches)`. -/
def next_wallclock_datetime (start : NDt) (e : CronEntry) (maxYears : ℤ) : Option NDt :=
  monthLoop e start ((max maxYears 0).toNat * 12) (preMonthState start e)

/-! ## The expression parser (`_CronEntry.from_expression`) -/

/-- Parse one comma-separated token of a field, accumulating into the
field's value collection (a `List ℕ` standing, membership-wise, for the
Python `set`). -/
def parseToken (sp : CronFieldSpec) (token : List Char) (acc : List ℕ) :
    Except String (List ℕ) :=
  let parts := chSplitOnce '/' token
  let is_step_specified := parts.2.isSome
  let list_item := parts.1
  let stepRes : Except String ℤ :=
    match parts.2 with
    | none => .ok 1
    | some stepText =>
      match pyInt? stepText with
      | some v => .ok v
      | none => .error ("Bad " ++ sp.name)
  match stepRes with
  | .error msg => .error msg
  | .ok step =>
    if step ≤ 0 then .error ("Bad " ++ sp.name)
    else
      let stepN := step.toNat
      if list_item = ['*'] then .ok (acc ++ pyRange sp.lo sp.hi stepN)
      else
        match chSplitOn '-' list_item with
        | [single] =>
          match number_from_item single sp.text_map with
          | none => .error ("Bad " ++ sp.name)
          | some num =>
            if num < (sp.lo : ℤ) ∨ (sp.hi : ℤ) < num then .error ("Bad " ++ sp.name)
            else if is_step_specified then
              .ok (acc ++ pyRange num.toNat sp.hi stepN)
            else .ok (acc ++ [num.toNat])
        | [a, b] =>
          match number_from_item a sp.text_map, number_from_item b sp.text_map with
          | some lower, some upper =>
            if upper < lower then .error ("Bad " ++ sp.name)
            else if lower < (sp.lo : ℤ) ∨ (sp.hi : ℤ) < upper then .error ("Bad " ++ sp.name)
            else .ok (acc ++ pyRange lower.toNat upper.toNat stepN)
          | _, _ => .error ("Bad " ++ sp.name)
        | _ => .error ("Bad " ++ sp.name)

/-- Fold `parseToken` over all comma-separated tokens of a field. -/
def parseFieldGo (sp : CronFieldSpec) : List (List Char) → List ℕ → Except String (List ℕ)
  | [], acc => .ok acc
  | t :: rest, acc =>
    match parseToken sp t acc with
    | .error m => .error m
    | .ok acc2 => parseFieldGo sp rest acc2

/-- Parse one whitespace-separated field into its expanded value collection. -/
def parseField (sp : CronFieldSpec) (field : List Char) : Except String (List ℕ) :=
  parseFieldGo sp (chSplitOn ',' field) []

/-- Ordered duplicate-skipping insertion into an ascending list. -/
def insSorted (x : ℕ) : List ℕ → List ℕ
  | [] => [x]
  | y :: rest =>
    if x < y then x :: y :: rest
    else if x = y then y :: rest
    else y :: insSorted x rest

/-- Ascending duplicate-free listing of a value collection
(Python `sorted(set(...))`). -/
def sortedDedup : List ℕ → List ℕ
  | [] => []
  | x :: rest => insSorted x (sortedDedup rest)

/-- Does the field text start with `*` (Python `field.startswith('*')`)? -/
def startsWithStar : List Char → Bool
  | [] => false
  | c :: _ => c = '*'

/-- `_CronEntry.from_expression`. -/
def from_expression (expression : String) : Except String CronEntry :=
  if 1000 < expression.length then
    .error "Bad expression - length exceeds 1000 characters"
  else
    match chSplitWs expression.toList with
    | [f0, f1, f2, f3, f4] => do
      let s0 ← parseField minuteSpec f0
      let s1 ← parseField hourSpec f1
      let s2 ← parseField dayOfMonthSpec f2
      let s3 ← parseField monthSpec f3
      let s4 ← parseField dayOfWeekSpec f4
      if s0 = [] ∨ s1 = [] ∨ s2 = [] ∨ s3 = [] ∨ s4 = [] then
        .error "Bad expression"
      else
        let entry : CronEntry :=
          ⟨sortedDedup s0, sortedDedup s1, sortedDedup s2, sortedDedup s3, sortedDedup s4,
            startsWithStar f0, startsWithStar f1, startsWithStar f2, startsWithStar f4⟩
        if entry.has_triggers then .ok entry
        else .error "Bad expression - results in no triggers"
    | _ => .error "Bad expression - expect five (5) fields separated by whitespace"

/-! ## Aware datetimes, timezones and timestamps (host `tzinfo` contract) -/

/-- An aware civil datetime: the naive minute-level fields plus seconds,
microseconds and the fold tag. -/
structure ADt where
  nd : NDt
  second : ℕ
  micro : ℕ
  fold : Bool
deriving DecidableEq, Repr

/-- Microseconds from civil 0001-01-01T00:00:00.000000 to the civil reading
of `t` (independent of fold and offset). -/
def civilMicros (t : ADt) : ℤ :=
  ((dayNumber t.nd.year t.nd.month t.nd.day : ℤ) * 86400
      + (t.nd.hour : ℤ) * 3600 + (t.nd.minute : ℤ) * 60 + (t.second : ℤ)) * 1000000
    + (t.micro : ℤ)

/-- The host timezone contract: a UTC-offset function (seconds, may depend on
every civil field and the fold tag, as Python `tzinfo.utcoffset` may) and a
localization function (models `datetime.fromtimestamp(ts, tz)`). -/
structure Tz where
  offsetOf : ADt → ℤ
  fromTs : ℤ → ADt

/-- `datetime.timestamp()`, in integral microseconds since the civil epoch
minus the offset (the UTC epoch shift is a constant that cancels in every
comparison the code makes, so it is omitted). -/
def tsMicros (tz : Tz) (t : ADt) : ℤ := civilMicros t - tz.offsetOf t * 1000000

/-- `_delta_seconds_between_fold`. -/
def delta_seconds_between_fold (tz : Tz) (t : ADt) : ℤ :=
  (tsMicros tz { t with micro := 0, fold := false }
      - tsMicros tz { t with micro := 0, fold := true }) / 1000000

/-- Inverse civil-from-day-number conversion (Howard Hinnant's algorithm,
shifted to the 0001-01-01 epoch of `dayNumber`). -/
def civilFromDays (days : ℤ) : ℕ × ℕ × ℕ :=
  let z := days + 306
  let era := z.fdiv 146097
  let doe := z - era * 146097
  let yoe := (doe - doe / 1460 + doe / 36524 - doe / 146096) / 365
  let y := yoe + era * 400
  let doy := doe - (365 * yoe + yoe / 4 - yoe / 100)
  let mp := (5 * doy + 2) / 153
  let d := doy - (153 * mp + 2) / 5 + 1
  let m := mp + (if mp < 10 then 3 else -9)
  let y2 := y + (if m ≤ 2 then 1 else 0)
  (y2.toNat, m.toNat, d.toNat)

/-- Civil datetime from epoch microseconds (fold of the result is 0, as in
Python `datetime` arithmetic). -/
def civilFromMicros (us : ℤ) : ADt :=
  let day := us.fdiv 86400000000
  let rem := us.emod 86400000000
  let ymd := civilFromDays day
  let sec := rem / 1000000
  let mic := rem % 1000000
  ⟨⟨ymd.1, ymd.2.1, ymd.2.2, (sec / 3600).toNat, ((sec % 3600) / 60).toNat⟩,
    ((sec % 3600) % 60).toNat, mic.toNat, false⟩

/-- `datetime + timedelta(microseconds = delta)`: civil arithmetic; the result
carries fold 0 (Python datetime addition does not preserve fold). -/
def addMicros (t : ADt) (delta : ℤ) : ADt := civilFromMicros (civilMicros t + delta)

/-- A fixed-offset timezone (`datetime.timezone(timedelta(seconds = k))`):
constant offset, localization by plain civil conversion. -/
def fixedTz (k : ℤ) : Tz :=
  ⟨fun _ => k, fun ts => civilFromMicros (ts + k * 1000000)⟩

/-! ## The DST-aware iterator (`CronDst.iter`) -/

/-- The cursor carried between pulls: `start`, `monotonic_datetime`,
`goto_datetime`. -/
structure IterSt where
  start : ADt
  monotonic : ADt
  goto : Option ADt
deriving DecidableEq, Repr

/-- One step outcome of the `while True` body: yield a value, end the
sequence, or loop again with an updated cursor. -/
inductive IterOut where
  | yield (v : ADt) (st : IterSt)
  | stop
  | cont (st : IterSt)
deriving DecidableEq, Repr

/-- The ambiguous-time handling at the top of the loop body (lines 362-376):
returns the possibly fast-forwarded `start` and possibly armed
`goto_datetime`. -/
def iterAdjust (tz : Tz) (isWild : Bool) (st : IterSt) : ADt × Option ADt :=
  let ds := delta_seconds_between_fold tz st.start
  if ds < 0 then
    let s1 :=
      if ¬ isWild ∧ st.start.fold then
        addMicros { st.start with nd := { st.start.nd with minute := 0 }, second := 0, micro := 0 }
          (3600000000 - 1)
      else st.start
    let g1 :=
      if isWild ∧ ¬ st.start.fold ∧ st.goto = none then
        some { (addMicros
            { st.start with nd := { st.start.nd with minute := 0 }, second := 0, micro := 0 }
            ((3600 + ds) * 1000000)) with fold := true }
      else st.goto
    (s1, g1)
  else (st.start, st.goto)

/-- The prepared-jump check (lines 399-403) followed by the yield
(lines 405-407). -/
def iterGotoCheck (tz : Tz) (goto1 : Option ADt) (st : IterSt) (r : ADt) : IterOut :=
  match goto1 with
  | some g =>
    if tsMicros tz g ≤ tsMicros tz r then
      .cont ⟨addMicros g (-1), st.monotonic, none⟩
    else .yield r ⟨r, r, goto1⟩
  | none => .yield r ⟨r, r, goto1⟩

/-- One pass of the `while True` body of `CronDst.iter`. -/
def iterBody (tz : Tz) (e : CronEntry) (maxY : ℤ) (st : IterSt) : IterOut :=
  let isWild := e.is_wildcard
  let adj := iterAdjust tz isWild st
  let start1 := adj.1
  let goto1 := adj.2
  match next_wallclock_datetime start1.nd e maxY with
  | none => .stop
  | some rnd =>
    let r0 : ADt := ⟨rnd, 0, 0, false⟩
    let r1 := if tsMicros tz r0 ≤ tsMicros tz st.monotonic then { r0 with fold := true } else r0
    let ds2 := delta_seconds_between_fold tz r1
    if 0 < ds2 then
      let r2 := addMicros { r1 with nd := { r1.nd with minute := 0 }, second := 0, micro := 0 }
        (ds2 * 1000000)
      if isWild then .cont ⟨addMicros r2 (-1), st.monotonic, goto1⟩
      else iterGotoCheck tz goto1 st r2
    else iterGotoCheck tz goto1 st r1

/-- Run body passes until a yield or the end of the sequence; `fuel` bounds
the number of consecutive non-yielding passes (the loop re-runs its body
without yielding only on `continue`). -/
def iterNext (tz : Tz) (e : CronEntry) (maxY : ℤ) : ℕ → IterSt → Option (ADt × IterSt)
  | 0, _ => none
  | fuel + 1, st =>
    match iterBody tz e maxY st with
    | .yield v st2 => some (v, st2)
    | .stop => none
    | .cont st2 => iterNext tz e maxY fuel st2

/-- The normalized iteration start (line 357):
`fromtimestamp(start.timestamp()).replace(second=0, microsecond=0)`. -/
def iterInitStart (tz : Tz) (start : ADt) : ADt :=
  let n := tz.fromTs (tsMicros tz start)
  { n with second := 0, micro := 0 }

/-- The initial cursor of `CronDst.iter`. -/
def iterInit (tz : Tz) (start : ADt) : IterSt :=
  let s := iterInitStart tz start
  ⟨s, s, none⟩

/-- The `n`-th pulled value (0-based) of the iterator together with the
cursor after it, each pull given `innerFuel` body passes. -/
def iterNth (tz : Tz) (e : CronEntry) (maxY : ℤ) (innerFuel : ℕ) :
    ℕ → IterSt → Option (ADt × IterSt)
  | 0, st => iterNext tz e maxY innerFuel st
  | n + 1, st =>
    match iterNext tz e maxY innerFuel st with
    | none => none
    | some (_, st2) => iterNth tz e maxY innerFuel n st2

/-! ## Specification-level predicates -/

/-- The schedule invariants promised by the parser: every value sequence is
non-empty, strictly ascending (hence duplicate-free) and within its field's
inclusive bounds. -/
def EntryWF (e : CronEntry) : Prop :=
  e.minutes ≠ [] ∧ e.minutes.Pairwise (· < ·) ∧ (∀ x ∈ e.minutes, x ≤ 59) ∧
  e.hours ≠ [] ∧ e.hours.Pairwise (· < ·) ∧ (∀ x ∈ e.hours, x ≤ 23) ∧
  e.days ≠ [] ∧ e.days.Pairwise (· < ·) ∧ (∀ x ∈ e.days, 1 ≤ x ∧ x ≤ 31) ∧
  e.months ≠ [] ∧ e.months.Pairwise (· < ·) ∧ (∀ x ∈ e.months, 1 ≤ x ∧ x ≤ 12) ∧
  e.days_of_week ≠ [] ∧ e.days_of_week.Pairwise (· < ·) ∧ (∀ x ∈ e.days_of_week, x ≤ 7)

instance (e : CronEntry) : Decidable (EntryWF e) := by unfold EntryWF; infer_instance

/-- A civil timestamp satisfies all five schedule fields: minute, hour and
month lie in their sets, and the day lies in the merged day / day-of-week
set for the timestamp's own month. -/
def MatchesEntry (e : CronEntry) (t : NDt) : Prop :=
  t.minute ∈ e.minutes ∧ t.hour ∈ e.hours ∧ t.month ∈ e.months ∧
    t.day ∈ e.merge_days_and_days_of_week t.year t.month none

instance (e : CronEntry) (t : NDt) : Decidable (MatchesEntry e t) := by
  unfold MatchesEntry; infer_instance

/-- Validity of an aware datetime (what the Python `datetime` constructor
guarantees). -/
def ADt.Valid (t : ADt) : Prop := t.nd.Valid ∧ t.second ≤ 59 ∧ t.micro ≤ 999999

instance (t : ADt) : Decidable t.Valid := by unfold ADt.Valid; infer_instance

/-- The chain of successive `_next_wallclock_datetime` results from `s`:
element 0 is the first result, element `n + 1` feeds result `n` back in. -/
def nwcChain (e : CronEntry) (maxY : ℤ) (s : NDt) : ℕ → Option NDt
  | 0 => next_wallclock_datetime s e maxY
  | n + 1 => (nwcChain e maxY s n).bind (fun r => next_wallclock_datetime r e maxY)

/-- A host timezone whose UTC offset jumps by +7200 s at civil 02:00
(fold-independent), as a Python `tzinfo` subclass may legally implement;
used to exhibit non-monotone iterator output. -/
def tzJump : Tz :=
  ⟨fun t => if t.nd.hour = 2 ∧ t.nd.minute = 0 then 7200 else 0, civilFromMicros⟩

/-! # Theorems -/

/-! ## Binary search (`_index_of_nearest_number`) -/

theorem ionGo_spec {α : Type} [LinearOrder α] (numbers : List α) (target : α) :
    ∀ (fuel : ℕ) (low high : ℤ),
    -1 ≤ low → low < high → high ≤ (numbers.length : ℤ) →
    high - low ≤ (fuel : ℤ) + 1 →
    (0 ≤ low → numbers.getD low.toNat target < target) →
    (high < (numbers.length : ℤ) → target ≤ numbers.getD high.toNat target) →
    low < ionGo numbers target fuel low high ∧
    ionGo numbers target fuel low high ≤ high ∧
    (0 < ionGo numbers target fuel low high →
      numbers.getD (ionGo numbers target fuel low high - 1).toNat target < target) ∧
    ((ionGo numbers target fuel low high) < (numbers.length : ℤ) →
      target ≤ numbers.getD (ionGo numbers target fuel low high).toNat target) := by
  intro fuel
  induction fuel with
  | zero =>
    intro low high h1 h2 h3 h4 hP hH
    simp only [ionGo]
    have hhigh : high = low + 1 := by omega
    refine ⟨by omega, le_refl _, ?_, hH⟩
    intro hr
    have : high - 1 = low := by omega
    rw [this]
    exact hP (by omega)
  | succ n ih =>
    intro low high h1 h2 h3 h4 hP hH
    simp only [ionGo]
    by_cases hlt : low + 1 < high
    · simp only [if_pos hlt]
      set mid := low + (high - low) / 2 with hmid
      have hmid1 : low < mid := by omega
      have hmid2 : mid < high := by omega
      by_cases hcmp : target ≤ numbers.getD mid.toNat target
      · simp only [if_pos hcmp]
        exact ⟨(ih low mid h1 hmid1 (by omega) (by omega) hP (fun _ => hcmp)).1,
          le_trans (ih low mid h1 hmid1 (by omega) (by omega) hP (fun _ => hcmp)).2.1 (by omega),
          (ih low mid h1 hmid1 (by omega) (by omega) hP (fun _ => hcmp)).2.2.1,
          (ih low mid h1 hmid1 (by omega) (by omega) hP (fun _ => hcmp)).2.2.2⟩
      · simp only [if_neg hcmp]
        push_neg at hcmp
        have := ih mid high (by omega) hmid2 h3 (by omega) (fun _ => hcmp) hH
        exact ⟨by omega, this.2.1, this.2.2.1, this.2.2.2⟩
    · simp only [if_neg hlt]
      have hhigh : high = low + 1 := by omega
      refine ⟨by omega, le_refl _, ?_, hH⟩
      intro hr
      have : high - 1 = low := by omega
      rw [this]
      exact hP (by omega)

theorem ion_spec {α : Type} [LinearOrder α] (numbers : List α) (target : α) :
    0 ≤ index_of_nearest_number numbers target ∧
    index_of_nearest_number numbers target ≤ (numbers.length : ℤ) ∧
    (0 < index_of_nearest_number numbers target →
      numbers.getD (index_of_nearest_number numbers target - 1).toNat target < target) ∧
    (index_of_nearest_number numbers target < (numbers.length : ℤ) →
      target ≤ numbers.getD (index_of_nearest_number numbers target).toNat target) := by
  have h := ionGo_spec numbers target (numbers.length + 1) (-1) (numbers.length : ℤ)
    (le_refl _) (by omega) (le_refl _) (by push_cast; omega)
    (by omega) (by omega)
  unfold index_of_nearest_number
  exact ⟨by omega, h.2.1, h.2.2.1, h.2.2.2⟩

/-- Sorted lists are monotone under index access with default. -/
theorem getD_mono_of_pairwise {α : Type} [LinearOrder α] {l : List α}
    (hs : l.Pairwise (· < ·)) (d : α) {i j : ℕ} (hij : i ≤ j) (hj : j < l.length) :
    l.getD i d ≤ l.getD j d := by
  rcases Nat.lt_or_ge i j with h | h
  · rw [List.getD_eq_getElem l d (lt_trans h hj), List.getD_eq_getElem l d hj]
    exact le_of_lt (List.pairwise_iff_getElem.mp hs i j (lt_trans h hj) hj h)
  · have : i = j := by omega
    subst this
    exact le_refl _

/-- Every index below the insertion point holds a value `< target`. -/
theorem ion_lt_of_index_lt {α : Type} [LinearOrder α] {numbers : List α} {target : α}
    (hs : numbers.Pairwise (· < ·)) {j : ℕ}
    (hj : (j : ℤ) < index_of_nearest_number numbers target) (hjl : j < numbers.length)
    (d : α) : numbers.getD j d < target := by
  have h := ion_spec numbers target
  set r := index_of_nearest_number numbers target with hr
  have h0 : 0 < r := by omega
  have hj2 : j ≤ (r - 1).toNat := by omega
  have hlt : (r - 1).toNat < numbers.length := by omega
  have := getD_mono_of_pairwise hs target hj2 hlt
  have hdg : numbers.getD j d = numbers.getD j target := by
    rw [List.getD_eq_getElem numbers d hjl, List.getD_eq_getElem numbers target hjl]
  rw [hdg]
  exact lt_of_le_of_lt this (h.2.2.1 h0)

/-- Every index at or above the insertion point holds a value `≥ target`. -/
theorem ion_ge_of_index_ge {α : Type} [LinearOrder α] {numbers : List α} {target : α}
    (hs : numbers.Pairwise (· < ·)) {j : ℕ}
    (hj : index_of_nearest_number numbers target ≤ (j : ℤ)) (hjl : j < numbers.length)
    (d : α) : target ≤ numbers.getD j d := by
  have h := ion_spec numbers target
  set r := index_of_nearest_number numbers target with hr
  have hrl : r < (numbers.length : ℤ) := by omega
  have hj2 : r.toNat ≤ j := by omega
  have := getD_mono_of_pairwise hs target hj2 hjl
  have hdg : numbers.getD j d = numbers.getD j target := by
    rw [List.getD_eq_getElem numbers d hjl, List.getD_eq_getElem numbers target hjl]
  rw [hdg]
  exact le_trans (h.2.2.2 hrl) this

/-- When the insertion point is interior, it holds the least element
`≥ target`. -/
theorem ion_found {α : Type} [LinearOrder α] {numbers : List α} {target : α}
    (hs : numbers.Pairwise (· < ·))
    (hlt : index_of_nearest_number numbers target < (numbers.length : ℤ)) (d : α) :
    numbers.getD (index_of_nearest_number numbers target).toNat d ∈ numbers ∧
    target ≤ numbers.getD (index_of_nearest_number numbers target).toNat d ∧
    (∀ x ∈ numbers, target ≤ x →
      numbers.getD (index_of_nearest_number numbers target).toNat d ≤ x) := by
  have h := ion_spec numbers target
  set r := index_of_nearest_number numbers target with hr
  have hrn : r.toNat < numbers.length := by omega
  refine ⟨by rw [List.getD_eq_getElem numbers d hrn]; exact List.getElem_mem hrn, ?_, ?_⟩
  · exact ion_ge_of_index_ge hs (by omega) hrn d
  · intro x hx htx
    rcases List.mem_iff_getElem.mp hx with ⟨j, hjl, hje⟩
    rcases Int.lt_or_le (j : ℤ) r with hcase | hcase
    · exact absurd htx (not_le.mpr (by
        have := ion_lt_of_index_lt hs hcase hjl d
        rw [List.getD_eq_getElem numbers d hjl] at this
        rw [hje] at this
        exact this))
    · have := getD_mono_of_pairwise hs d (show r.toNat ≤ j by omega) hjl
      rw [List.getD_eq_getElem numbers d hjl, hje] at this
      exact this

/-- When the insertion point equals the length, every element is
`< target`. -/
theorem ion_notfound {α : Type} [LinearOrder α] {numbers : List α} {target : α}
    (hs : numbers.Pairwise (· < ·))
    (hge : (numbers.length : ℤ) ≤ index_of_nearest_number numbers target) :
    ∀ x ∈ numbers, x < target := by
  intro x hx
  rcases List.mem_iff_getElem.mp hx with ⟨j, hjl, hje⟩
  have := ion_lt_of_index_lt hs (show (j : ℤ) < index_of_nearest_number numbers target by omega)
    hjl x
  rw [List.getD_eq_getElem numbers x hjl, hje] at this
  exact this

theorem ionGo_fuel_invariant {α : Type} [LinearOrder α] (numbers : List α) (target : α) :
    ∀ (fuel fuel2 : ℕ) (low high : ℤ),
    low < high → high - low ≤ (fuel : ℤ) + 1 → high - low ≤ (fuel2 : ℤ) + 1 →
    ionGo numbers target fuel low high = ionGo numbers target fuel2 low high := by
  intro fuel
  induction fuel with
  | zero =>
    intro fuel2 low high h1 h2 h3
    have : ¬ (low + 1 < high) := by omega
    cases fuel2 with
    | zero => rfl
    | succ m => simp only [ionGo, if_neg this]
  | succ n ih =>
    intro fuel2 low high h1 h2 h3
    cases fuel2 with
    | zero =>
      have : ¬ (low + 1 < high) := by omega
      simp only [ionGo, if_neg this]
    | succ m =>
      simp only [ionGo]
      by_cases hlt : low + 1 < high
      · simp only [if_pos hlt]
        by_cases hcmp : target ≤ numbers.getD (low + (high - low) / 2).toNat target
        · simp only [if_pos hcmp]
          exact ih m low (low + (high - low) / 2) (by omega) (by omega) (by omega)
        · simp only [if_neg hcmp]
          exact ih m (low + (high - low) / 2) high (by omega) (by omega) (by omega)
      · simp only [if_neg hlt]

/-- C10: `_index_of_nearest_number(numbers, target)` terminates (its loop
needs no more than `len + 1` halvings: any larger fuel yields the same
answer) and returns the unique insertion index `i` with
`0 ≤ i ≤ len`, `numbers[i-1] < target` when `i > 0`, and
`target ≤ numbers[i]` when `i < len`. -/
theorem c10_index_of_nearest_number (numbers : List ℤ) (target : ℤ)
    (hasc : numbers.Pairwise (· < ·)) :
    (∀ extra : ℕ, ionGo numbers target (numbers.length + 1 + extra) (-1) (numbers.length : ℤ)
        = index_of_nearest_number numbers target) ∧
    0 ≤ index_of_nearest_number numbers target ∧
    index_of_nearest_number numbers target ≤ (numbers.length : ℤ) ∧
    (0 < index_of_nearest_number numbers target →
      numbers.getD (index_of_nearest_number numbers target - 1).toNat 0 < target) ∧
    (index_of_nearest_number numbers target < (numbers.length : ℤ) →
      target ≤ numbers.getD (index_of_nearest_number numbers target).toNat 0) ∧
    (∀ j : ℤ, 0 ≤ j → j ≤ (numbers.length : ℤ) →
      (0 < j → numbers.getD (j - 1).toNat 0 < target) →
      (j < (numbers.length : ℤ) → target ≤ numbers.getD j.toNat 0) →
      j = index_of_nearest_number numbers target) := by
  have hfuel : ∀ extra : ℕ,
      ionGo numbers target (numbers.length + 1 + extra) (-1) (numbers.length : ℤ)
        = index_of_nearest_number numbers target := by
    intro extra
    unfold index_of_nearest_number
    exact ionGo_fuel_invariant numbers target (numbers.length + 1 + extra) (numbers.length + 1)
      (-1) (numbers.length : ℤ) (by omega) (by push_cast; omega) (by push_cast; omega)
  have h := ion_spec numbers target
  set r := index_of_nearest_number numbers target with hr
  have hdefault : ∀ (k : ℕ) (d d2 : ℤ), k < numbers.length →
      numbers.getD k d = numbers.getD k d2 := by
    intro k d d2 hk
    rw [List.getD_eq_getElem numbers d hk, List.getD_eq_getElem numbers d2 hk]
  refine ⟨hfuel, h.1, h.2.1, ?_, ?_, ?_⟩
  · intro h0
    rw [hdefault (r - 1).toNat 0 target (by omega)]
    exact h.2.2.1 h0
  · intro hlen
    rw [hdefault r.toNat 0 target (by omega)]
    exact h.2.2.2 hlen
  · intro j hj0 hjlen hjlow hjhigh
    by_contra hne
    rcases Int.lt_or_le j r with hlt | hle
    · have hjl : j.toNat < numbers.length := by omega
      have h1 : numbers.getD j.toNat 0 < target := by
        have := ion_lt_of_index_lt hasc (show ((j.toNat : ℕ) : ℤ) < r by omega) hjl (0 : ℤ)
        exact this
      have h2 : target ≤ numbers.getD j.toNat 0 := by
        have := hjhigh (by omega)
        exact this
      omega
    · have hrlt : r < j := by omega
      have hrl : r.toNat < numbers.length := by omega
      have h1 : target ≤ numbers.getD r.toNat 0 := by
        rw [hdefault r.toNat 0 target (by omega)]
        exact h.2.2.2 (by omega)
      have h2 : numbers.getD r.toNat 0 < target := by
        have hmono := getD_mono_of_pairwise hasc (0 : ℤ)
          (show r.toNat ≤ (j - 1).toNat by omega) (show (j - 1).toNat < numbers.length by omega)
        exact lt_of_le_of_lt hmono (hjlow (by omega))
      omega

theorem c10_witness :
    ([1, 4, 7] : List ℤ).Pairwise (· < ·) ∧
    0 ≤ index_of_nearest_number ([1, 4, 7] : List ℤ) 5 ∧
    index_of_nearest_number ([1, 4, 7] : List ℤ) 5 ≤ (([1, 4, 7] : List ℤ).length : ℤ) :=
  ⟨by decide, (c10_index_of_nearest_number [1, 4, 7] 5 (by decide)).2.1,
    (c10_index_of_nearest_number [1, 4, 7] 5 (by decide)).2.2.1⟩

/-! ## List helpers for sorted value sequences -/

theorem headD_mem {α : Type} {l : List α} (h : l ≠ []) (d : α) : l.headD d ∈ l := by
  cases l with
  | nil => exact absurd rfl h
  | cons a t => exact List.mem_cons_self a t

theorem headD_min {l : List ℕ} (hs : l.Pairwise (· < ·)) {x : ℕ} (hx : x ∈ l) (d : ℕ) :
    l.headD d ≤ x := by
  cases l with
  | nil => exact absurd hx (List.not_mem_nil x)
  | cons a t =>
    rcases List.mem_cons.mp hx with h | h
    · simp [h]
    · exact le_of_lt ((List.pairwise_cons.mp hs).1 x h)

/-! ## The day / day-of-week merge (`merge_days_and_days_of_week`) -/

theorem dowFoldSet_mem (l : List ℕ) (x : ℕ) :
    x ∈ dowFoldSet l ↔ x ∈ l ∨ (x = 0 ∧ 7 ∈ l) := by
  unfold dowFoldSet
  by_cases h7 : 7 ∈ l
  · simp only [if_pos h7, List.mem_cons]
    constructor
    · rintro (h | h)
      · exact Or.inr ⟨h, h7⟩
      · exact Or.inl h
    · rintro (h | ⟨h, _⟩)
      · exact Or.inr h
      · exact Or.inl h
  · simp only [if_neg h7]
    constructor
    · exact fun h => Or.inl h
    · rintro (h | ⟨_, h⟩)
      · exact h
      · exact absurd h h7

theorem mergeLoop_mem (daysL dowL : List ℕ) (useAnd : Bool) :
    ∀ (n day0 wk0 x : ℕ),
    x ∈ mergeLoop daysL dowL useAnd n day0 wk0 ↔
      day0 ≤ x ∧ x < day0 + n ∧
        mergeKeep daysL dowL useAnd x ((wk0 + 1 + (x - day0)) % 7) := by
  intro n
  induction n with
  | zero =>
    intro day0 wk0 x
    simp only [mergeLoop, List.not_mem_nil, false_iff]
    omega
  | succ m ih =>
    intro day0 wk0 x
    simp only [mergeLoop]
    have heq : ∀ z : ℕ, day0 + 1 ≤ z →
        ((wk0 + 1) % 7 + 1 + (z - (day0 + 1))) % 7 = (wk0 + 1 + (z - day0)) % 7 := by
      intro z hz
      omega
    by_cases hc : mergeKeep daysL dowL useAnd day0 ((wk0 + 1) % 7)
    · rw [if_pos hc, List.mem_cons]
      constructor
      · rintro (rfl | hmem)
        · refine ⟨le_refl _, by omega, ?_⟩
          have hz : x - x = 0 := by omega
          rw [hz]
          have harg : (wk0 + 1 + 0) % 7 = (wk0 + 1) % 7 := by omega
          rw [harg]
          exact hc
        · obtain ⟨h1, h2, h3⟩ := (ih _ _ _).mp hmem
          refine ⟨by omega, by omega, ?_⟩
          rwa [heq x h1] at h3
      · rintro ⟨h1, h2, h3⟩
        by_cases hx : x = day0
        · exact Or.inl hx
        · refine Or.inr ((ih _ _ _).mpr ⟨by omega, by omega, ?_⟩)
          rw [heq x (by omega)]
          exact h3
    · rw [if_neg hc]
      constructor
      · intro hmem
        obtain ⟨h1, h2, h3⟩ := (ih _ _ _).mp hmem
        refine ⟨by omega, by omega, ?_⟩
        rwa [heq x h1] at h3
      · rintro ⟨h1, h2, h3⟩
        have hx : x ≠ day0 := by
          rintro rfl
          apply hc
          have hz : x - x = 0 := by omega
          rw [hz] at h3
          have harg : (wk0 + 1 + 0) % 7 = (wk0 + 1) % 7 := by omega
          rwa [harg] at h3
        refine (ih _ _ _).mpr ⟨by omega, by omega, ?_⟩
        rw [heq x (by omega)]
        exact h3

theorem mergeLoop_sorted (daysL dowL : List ℕ) (useAnd : Bool) :
    ∀ (n day0 wk0 : ℕ), (mergeLoop daysL dowL useAnd n day0 wk0).Pairwise (· < ·) := by
  intro n
  induction n with
  | zero =>
    intro day0 wk0
    simp [mergeLoop]
  | succ m ih =>
    intro day0 wk0
    simp only [mergeLoop]
    by_cases hc : mergeKeep daysL dowL useAnd day0 ((wk0 + 1) % 7)
    · rw [if_pos hc]
      refine List.pairwise_cons.mpr ⟨?_, ih _ _⟩
      intro x hx
      have := (mergeLoop_mem daysL dowL useAnd m (day0 + 1) ((wk0 + 1) % 7) x).mp hx
      omega
    · rw [if_neg hc]
      exact ih _ _

theorem dayNumber_day_shift (y mo : ℕ) : ∀ d : ℕ, dayNumber y mo d = dayNumber y mo 1 + (d - 1) := by
  intro d
  unfold dayNumber
  omega

theorem merge_mem (e : CronEntry) (y mo : ℕ) (u : Option Bool) (d : ℕ) :
    d ∈ e.merge_days_and_days_of_week y mo u ↔
      1 ≤ d ∧ d ≤ daysInMonth y mo ∧
        mergeKeep e.days (dowFoldSet e.days_of_week)
          (u.getD (e.day_star || e.day_of_week_star)) d (weekdaySun0 y mo d) := by
  unfold CronEntry.merge_days_and_days_of_week
  rw [mergeLoop_mem]
  have hwd : 1 ≤ d → (weekdayMon0 y mo 1 + 1 + (d - 1)) % 7 = weekdaySun0 y mo d := by
    intro hd
    unfold weekdayMon0 weekdaySun0
    rw [dayNumber_day_shift y mo d]
    omega
  constructor
  · rintro ⟨h1, h2, h3⟩
    exact ⟨h1, by omega, by rwa [hwd h1] at h3⟩
  · rintro ⟨h1, h2, h3⟩
    exact ⟨h1, by omega, by rwa [hwd h1]⟩

theorem merge_sorted (e : CronEntry) (y mo : ℕ) (u : Option Bool) :
    (e.merge_days_and_days_of_week y mo u).Pairwise (· < ·) :=
  mergeLoop_sorted _ _ _ _ _ _

/-- C3: with the combinator argument omitted, `merge_days_and_days_of_week`
returns an ascending list of the days in `1 .. daysInMonth` of the given
timestamp's month, a day being included under AND semantics (day in the
day-of-month set AND its Sunday-0 weekday, with day-of-week value 7 folded
to 0, in the day-of-week set) when the day or day-of-week wildcard flag is
set, and under OR semantics when neither is. -/
theorem c3_merge_days_and_days_of_week (e : CronEntry) (t : NDt) :
    (e.merge_days_and_days_of_week t.year t.month none).Pairwise (· < ·) ∧
    ∀ d : ℕ, d ∈ e.merge_days_and_days_of_week t.year t.month none ↔
      (1 ≤ d ∧ d ≤ daysInMonth t.year t.month ∧
        if e.day_star || e.day_of_week_star then
          d ∈ e.days ∧ (weekdaySun0 t.year t.month d ∈ e.days_of_week ∨
            (weekdaySun0 t.year t.month d = 0 ∧ 7 ∈ e.days_of_week))
        else
          d ∈ e.days ∨ (weekdaySun0 t.year t.month d ∈ e.days_of_week ∨
            (weekdaySun0 t.year t.month d = 0 ∧ 7 ∈ e.days_of_week))) := by
  refine ⟨merge_sorted e t.year t.month none, fun d => ?_⟩
  rw [merge_mem]
  unfold mergeKeep
  simp only [Option.getD_none, dowFoldSet_mem]

/-! ## The feasibility check (`has_triggers`) -/

theorem getLastD_mem {l : List ℕ} (h : l ≠ []) (d : ℕ) : l.getLastD d ∈ l := by
  induction l with
  | nil => exact absurd rfl h
  | cons a t ih =>
    cases t with
    | nil => simp [List.getLastD]
    | cons b u =>
      rw [List.getLastD_cons]
      exact List.mem_cons_of_mem a (ih (by simp))

theorem getLastD_max {l : List ℕ} (hs : l.Pairwise (· < ·)) (d : ℕ) :
    ∀ x ∈ l, x ≤ l.getLastD d := by
  induction l with
  | nil =>
    intro x hx
    exact absurd hx (List.not_mem_nil x)
  | cons a t ih =>
    cases t with
    | nil =>
      intro x hx
      rcases List.mem_cons.mp hx with h | h
      · simp [List.getLastD, h]
      · exact absurd h (List.not_mem_nil x)
    | cons b u =>
      intro x hx
      rw [List.getLastD_cons]
      have htail := (List.pairwise_cons.mp hs).2
      rcases List.mem_cons.mp hx with h | h
      · subst h
        have hab := (List.pairwise_cons.mp hs).1 b (List.mem_cons_self b u)
        exact le_trans (le_of_lt hab) (ih htail b (List.mem_cons_self b u))
      · exact ih htail x h

/-- C6: `has_triggers` accepts whenever the day-of-week wildcard flag is
unset; when it is set, it accepts exactly when no selected day-of-month
exceeds the largest possible month length over the schedule's months
(February counted as 29 days). -/
theorem c6_has_triggers (e : CronEntry) (hwf : EntryWF e) :
    (e.day_of_week_star = false → e.has_triggers = true) ∧
    (e.day_of_week_star = true →
      (e.has_triggers = true ↔
        ∀ d ∈ e.days,
          d ≤ (e.months.map (fun m => max_day_of_month.getD (m - 1) 0)).foldr max 0)) := by
  obtain ⟨_, _, _, _, _, _, hdne, hdsort, _, _, _, _, _, _, _⟩ := hwf
  constructor
  · intro hstar
    unfold CronEntry.has_triggers
    rw [hstar]
    simp
  · intro hstar
    unfold CronEntry.has_triggers
    rw [hstar]
    simp only [if_pos rfl]
    set M := (e.months.map (fun m => max_day_of_month.getD (m - 1) 0)).foldr max 0 with hM
    by_cases hcmp : M < e.days.getLastD 0
    · rw [if_pos hcmp]
      constructor
      · intro h
        exact absurd h (by simp)
      · intro hall
        have := hall (e.days.getLastD 0) (getLastD_mem hdne 0)
        omega
    · rw [if_neg hcmp]
      constructor
      · intro _ d hd
        exact le_trans (getLastD_max hdsort 0 d hd) (by omega)
      · intro _
        rfl

theorem c6_witness :
    EntryWF ⟨[0], [12], [29], [2], [0, 1, 2, 3, 4, 5, 6, 7], false, false, false, true⟩ ∧
    (CronEntry.has_triggers ⟨[0], [12], [29], [2], [0, 1, 2, 3, 4, 5, 6, 7],
        false, false, false, true⟩ = true ↔
      ∀ d ∈ [29], d ≤ (([2] : List ℕ).map (fun m => max_day_of_month.getD (m - 1) 0)).foldr max 0) :=
  ⟨by decide,
    (c6_has_triggers ⟨[0], [12], [29], [2], [0, 1, 2, 3, 4, 5, 6, 7], false, false, false, true⟩
      (by decide)).2 rfl⟩

/-! ## Sorted-dedup listing and range expansion -/

theorem insSorted_mem (x : ℕ) : ∀ (l : List ℕ) (y : ℕ), y ∈ insSorted x l ↔ y = x ∨ y ∈ l := by
  intro l
  induction l with
  | nil =>
    intro y
    simp [insSorted]
  | cons a t ih =>
    intro y
    unfold insSorted
    by_cases h1 : x < a
    · rw [if_pos h1]
      simp [List.mem_cons]
    · rw [if_neg h1]
      by_cases h2 : x = a
      · rw [if_pos h2]
        subst h2
        simp only [List.mem_cons]
        constructor
        · exact fun h => Or.inr h
        · rintro (h | h)
          · exact Or.inl h
          · exact h
      · rw [if_neg h2]
        simp only [List.mem_cons, ih y]
        constructor
        · rintro (h | h | h)
          · exact Or.inr (Or.inl h)
          · exact Or.inl h
          · exact Or.inr (Or.inr h)
        · rintro (h | h | h)
          · exact Or.inr (Or.inl h)
          · exact Or.inl h
          · exact Or.inr (Or.inr h)

theorem insSorted_sorted (x : ℕ) :
    ∀ (l : List ℕ), l.Pairwise (· < ·) → (insSorted x l).Pairwise (· < ·) := by
  intro l
  induction l with
  | nil =>
    intro _
    simp [insSorted]
  | cons a t ih =>
    intro hs
    obtain ⟨hhead, htail⟩ := List.pairwise_cons.mp hs
    unfold insSorted
    by_cases h1 : x < a
    · rw [if_pos h1]
      refine List.pairwise_cons.mpr ⟨?_, hs⟩
      intro z hz
      rcases List.mem_cons.mp hz with h | h
      · omega
      · exact lt_trans h1 (hhead z h)
    · rw [if_neg h1]
      by_cases h2 : x = a
      · rw [if_pos h2]
        exact hs
      · rw [if_neg h2]
        refine List.pairwise_cons.mpr ⟨?_, ih htail⟩
        intro z hz
        rcases (insSorted_mem x t z).mp hz with h | h
        · omega
        · exact hhead z h

theorem sortedDedup_mem : ∀ (l : List ℕ) (x : ℕ), x ∈ sortedDedup l ↔ x ∈ l := by
  intro l
  induction l with
  | nil =>
    intro x
    simp [sortedDedup]
  | cons a t ih =>
    intro x
    unfold sortedDedup
    rw [insSorted_mem, ih x, List.mem_cons]

theorem sortedDedup_sorted : ∀ l : List ℕ, (sortedDedup l).Pairwise (· < ·) := by
  intro l
  induction l with
  | nil => simp [sortedDedup]
  | cons a t ih =>
    unfold sortedDedup
    exact insSorted_sorted a _ ih

theorem sortedDedup_ne_nil {l : List ℕ} (h : l ≠ []) : sortedDedup l ≠ [] := by
  cases l with
  | nil => exact absurd rfl h
  | cons a t =>
    intro hcon
    have := (sortedDedup_mem (a :: t) a).mpr (List.mem_cons_self a t)
    rw [hcon] at this
    exact List.not_mem_nil a this

theorem pyRange_bounds {a b s x : ℕ} (hs : 1 ≤ s) (hx : x ∈ pyRange a b s) :
    a ≤ x ∧ x ≤ b := by
  unfold pyRange at hx
  by_cases hab : a ≤ b
  · rw [if_pos hab] at hx
    obtain ⟨i, hi, rfl⟩ := List.mem_range'.mp hx
    refine ⟨Nat.le_add_right _ _, ?_⟩
    have hi2 : i ≤ (b - a) / s := by omega
    have h1 : s * i ≤ s * ((b - a) / s) := Nat.mul_le_mul_left s hi2
    have h2 : s * ((b - a) / s) ≤ b - a := by
      rw [Nat.mul_comm]
      exact Nat.div_mul_le_self _ _
    have h3 : s * i ≤ b - a := le_trans h1 h2
    have h4 : a + (b - a) = b := by omega
    calc a + s * i ≤ a + (b - a) := Nat.add_le_add_left h3 a
    _ = b := h4
  · rw [if_neg hab] at hx
    exact absurd hx (List.not_mem_nil x)

/-! ## Parser invariants -/

theorem parseToken_bounds {sp : CronFieldSpec} {token : List Char} {acc acc2 : List ℕ}
    (h : parseToken sp token acc = .ok acc2)
    (hacc : ∀ x ∈ acc, sp.lo ≤ x ∧ x ≤ sp.hi) :
    ∀ x ∈ acc2, sp.lo ≤ x ∧ x ≤ sp.hi := by
  unfold parseToken at h
  dsimp only at h
  split at h
  · exact Except.noConfusion h
  · rename_i step hstepRes
    split at h
    · exact Except.noConfusion h
    · rename_i hstep
      split at h
      · injection h with h2
        subst h2
        intro x hx
        rcases List.mem_append.mp hx with hx | hx
        · exact hacc x hx
        · exact pyRange_bounds (by omega) hx
      · split at h
        · split at h
          · exact Except.noConfusion h
          · rename_i num hnum
            split at h
            · exact Except.noConfusion h
            · rename_i hbound
              split at h
              · injection h with h2
                subst h2
                intro x hx
                rcases List.mem_append.mp hx with hx | hx
                · exact hacc x hx
                · have := pyRange_bounds (by omega) hx
                  omega
              · injection h with h2
                subst h2
                intro x hx
                rcases List.mem_append.mp hx with hx | hx
                · exact hacc x hx
                · rcases List.mem_singleton.mp hx with rfl
                  omega
        · split at h
          · rename_i lower upper hlow hup
            split at h
            · exact Except.noConfusion h
            · rename_i hle
              split at h
              · exact Except.noConfusion h
              · rename_i hbound
                injection h with h2
                subst h2
                intro x hx
                rcases List.mem_append.mp hx with hx | hx
                · exact hacc x hx
                · have := pyRange_bounds (by omega) hx
                  omega
          · exact Except.noConfusion h
        · exact Except.noConfusion h

theorem parseFieldGo_bounds {sp : CronFieldSpec} :
    ∀ {toks : List (List Char)} {acc acc2 : List ℕ},
    parseFieldGo sp toks acc = .ok acc2 →
    (∀ x ∈ acc, sp.lo ≤ x ∧ x ≤ sp.hi) →
    ∀ x ∈ acc2, sp.lo ≤ x ∧ x ≤ sp.hi := by
  intro toks
  induction toks with
  | nil =>
    intro acc acc2 h hacc
    unfold parseFieldGo at h
    injection h with h2
    subst h2
    exact hacc
  | cons t rest ih =>
    intro acc acc2 h hacc
    unfold parseFieldGo at h
    split at h
    · exact Except.noConfusion h
    · rename_i accMid hmid
      exact ih h (parseToken_bounds hmid hacc)

theorem parseField_bounds {sp : CronFieldSpec} {field : List Char} {s : List ℕ}
    (h : parseField sp field = .ok s) : ∀ x ∈ s, sp.lo ≤ x ∧ x ≤ sp.hi :=
  parseFieldGo_bounds h (by intro x hx; exact absurd hx (List.not_mem_nil x))

theorem from_expression_ok {s : String} {e : CronEntry} (h : from_expression s = .ok e) :
    ∃ (f0 f1 f2 f3 f4 : List Char) (l0 l1 l2 l3 l4 : List ℕ),
      chSplitWs s.toList = [f0, f1, f2, f3, f4] ∧
      parseField minuteSpec f0 = .ok l0 ∧
      parseField hourSpec f1 = .ok l1 ∧
      parseField dayOfMonthSpec f2 = .ok l2 ∧
      parseField monthSpec f3 = .ok l3 ∧
      parseField dayOfWeekSpec f4 = .ok l4 ∧
      l0 ≠ [] ∧ l1 ≠ [] ∧ l2 ≠ [] ∧ l3 ≠ [] ∧ l4 ≠ [] ∧
      e = ⟨sortedDedup l0, sortedDedup l1, sortedDedup l2, sortedDedup l3, sortedDedup l4,
        startsWithStar f0, startsWithStar f1, startsWithStar f2, startsWithStar f4⟩ ∧
      e.has_triggers = true := by
  unfold from_expression at h
  split at h
  · exact Except.noConfusion h
  · split at h
    · rename_i f0 f1 f2 f3 f4 hsplit
      cases hp0 : parseField minuteSpec f0 with
      | error m =>
        simp only [hp0, bind, Except.bind] at h
        exact Except.noConfusion h
      | ok l0 =>
        simp only [hp0, bind, Except.bind] at h
        cases hp1 : parseField hourSpec f1 with
        | error m =>
          simp only [hp1] at h
          exact Except.noConfusion h
        | ok l1 =>
          simp only [hp1] at h
          cases hp2 : parseField dayOfMonthSpec f2 with
          | error m =>
          simp only [hp2] at h
          exact Except.noConfusion h
          | ok l2 =>
            simp only [hp2] at h
            cases hp3 : parseField monthSpec f3 with
            | error m =>
          simp only [hp3] at h
          exact Except.noConfusion h
            | ok l3 =>
              simp only [hp3] at h
              cases hp4 : parseField dayOfWeekSpec f4 with
              | error m =>
          simp only [hp4] at h
          exact Except.noConfusion h
              | ok l4 =>
                simp only [hp4] at h
                split at h
                · exact Except.noConfusion h
                · rename_i hne
                  split at h
                  · rename_i htrig
                    injection h with h2
                    subst h2
                    push_neg at hne
                    exact ⟨f0, f1, f2, f3, f4, l0, l1, l2, l3, l4, hsplit,
                      hp0, hp1, hp2, hp3, hp4,
                      hne.1, hne.2.1, hne.2.2.1, hne.2.2.2.1, hne.2.2.2.2,
                      rfl, htrig⟩
                  · exact Except.noConfusion h
    · exact Except.noConfusion h

/-- C2: every successful parse yields a schedule whose five value sequences
are non-empty, strictly ascending (hence duplicate-free) and within the
field bounds; a failing parse raises and produces nothing. -/
theorem c2_from_expression_invariants (s : String) (e : CronEntry)
    (h : from_expression s = .ok e) : EntryWF e := by
  obtain ⟨f0, f1, f2, f3, f4, l0, l1, l2, l3, l4, _, hp0, hp1, hp2, hp3, hp4,
    hn0, hn1, hn2, hn3, hn4, he, _⟩ := from_expression_ok h
  subst he
  have b0 := parseField_bounds hp0
  have b1 := parseField_bounds hp1
  have b2 := parseField_bounds hp2
  have b3 := parseField_bounds hp3
  have b4 := parseField_bounds hp4
  refine ⟨sortedDedup_ne_nil hn0, sortedDedup_sorted _, ?_,
    sortedDedup_ne_nil hn1, sortedDedup_sorted _, ?_,
    sortedDedup_ne_nil hn2, sortedDedup_sorted _, ?_,
    sortedDedup_ne_nil hn3, sortedDedup_sorted _, ?_,
    sortedDedup_ne_nil hn4, sortedDedup_sorted _, ?_⟩
  · intro x hx
    exact (b0 x ((sortedDedup_mem _ _).mp hx)).2
  · intro x hx
    exact (b1 x ((sortedDedup_mem _ _).mp hx)).2
  · intro x hx
    exact b2 x ((sortedDedup_mem _ _).mp hx)
  · intro x hx
    exact b3 x ((sortedDedup_mem _ _).mp hx)
  · intro x hx
    exact (b4 x ((sortedDedup_mem _ _).mp hx)).2

theorem c2_witness :
    from_expression "1 2 3 4 5" = .ok ⟨[1], [2], [3], [4], [5], false, false, false, false⟩ ∧
    EntryWF ⟨[1], [2], [3], [4], [5], false, false, false, false⟩ :=
  ⟨by rfl, c2_from_expression_invariants "1 2 3 4 5" _ (by rfl)⟩

/-- C7 (amended): for every successfully parsed expression, each wildcard
boolean records whether the corresponding whitespace-separated field of the
source text starts with the character `*` (so `*/step` also sets the flag,
while `5,*` does not). -/
theorem c7_star_flags (s : String) (e : CronEntry) (h : from_expression s = .ok e) :
    ∃ (f0 f1 f2 f3 f4 : List Char),
      chSplitWs s.toList = [f0, f1, f2, f3, f4] ∧
      e.minute_star = startsWithStar f0 ∧
      e.hour_star = startsWithStar f1 ∧
      e.day_star = startsWithStar f2 ∧
      e.day_of_week_star = startsWithStar f4 := by
  obtain ⟨f0, f1, f2, f3, f4, l0, l1, l2, l3, l4, hsplit, _, _, _, _, _,
    _, _, _, _, _, he, _⟩ := from_expression_ok h
  subst he
  exact ⟨f0, f1, f2, f3, f4, hsplit, rfl, rfl, rfl, rfl⟩

theorem c7_witness :
    from_expression "* * * * *" =
      .ok ⟨[0, 1, 2, 3, 4, 5, 6, 7, 8, 9, 10, 11, 12, 13, 14, 15, 16, 17, 18, 19, 20, 21, 22,
        23, 24, 25, 26, 27, 28, 29, 30, 31, 32, 33, 34, 35, 36, 37, 38, 39, 40, 41, 42, 43, 44,
        45, 46, 47, 48, 49, 50, 51, 52, 53, 54, 55, 56, 57, 58, 59],
        [0, 1, 2, 3, 4, 5, 6, 7, 8, 9, 10, 11, 12, 13, 14, 15, 16, 17, 18, 19, 20, 21, 22, 23],
        [1, 2, 3, 4, 5, 6, 7, 8, 9, 10, 11, 12, 13, 14, 15, 16, 17, 18, 19, 20, 21, 22, 23, 24,
          25, 26, 27, 28, 29, 30, 31],
        [1, 2, 3, 4, 5, 6, 7, 8, 9, 10, 11, 12],
        [0, 1, 2, 3, 4, 5, 6, 7], true, true, true, true⟩ ∧
    ∃ (f0 f1 f2 f3 f4 : List Char),
      chSplitWs ("* * * * *").toList = [f0, f1, f2, f3, f4] ∧
      true = startsWithStar f0 ∧ true = startsWithStar f1 ∧
      true = startsWithStar f2 ∧ true = startsWithStar f4 :=
  ⟨by rfl, c7_star_flags "* * * * *" _ (by rfl)⟩

/-- C7 counterexample: the expression `*/2 0 1 1 0` parses successfully,
its minute field is `*/2` (not the single character `*`), yet the minute
wildcard flag is set — the flags record `startswith('*')`, not equality
with `*`. -/
theorem c7_counterexample :
    (from_expression "*/2 0 1 1 0").toOption.map CronEntry.minute_star = some true ∧
    chSplitWs ("*/2 0 1 1 0").toList = [['*', '/', '2'], ['0'], ['1'], ['1'], ['0']] ∧
    ['*', '/', '2'] ≠ ['*'] :=
  ⟨by rfl, by rfl, by decide⟩

/-! ## Calendar and key arithmetic helpers -/

theorem key_eta (t : NDt) :
    t.key = (((t.year * 14 + t.month) * 33 + t.day) * 25 + t.hour) * 61 + t.minute := rfl

theorem monthLinear_eta (t : NDt) : t.monthLinear = 12 * t.year + t.month := rfl

theorem getD_le_of_all {l : List ℕ} {b : ℕ} (h : ∀ x ∈ l, x ≤ b) (i d : ℕ) (hd : d ≤ b) :
    l.getD i d ≤ b := by
  by_cases hi : i < l.length
  · rw [List.getD_eq_getElem l d hi]
    exact h _ (List.getElem_mem hi)
  · rw [List.getD_eq_default l d (by omega)]
    exact hd

theorem monthLengths_le_31 (b : Bool) : ∀ x ∈ monthLengths b, x ≤ 31 := by
  intro x hx
  unfold monthLengths at hx
  cases b <;> simp at hx <;> omega

theorem daysInMonth_le_31 (y mo : ℕ) : daysInMonth y mo ≤ 31 := by
  unfold daysInMonth
  exact getD_le_of_all (monthLengths_le_31 _) _ _ (by omega)

theorem merge_bounds {e : CronEntry} {y mo : ℕ} {u : Option Bool} {d : ℕ}
    (h : d ∈ e.merge_days_and_days_of_week y mo u) : 1 ≤ d ∧ d ≤ daysInMonth y mo := by
  have := (merge_mem e y mo u d).mp h
  exact ⟨this.1, this.2.1⟩

/-- A strictly later month gives a strictly larger key, for field values in
the ranges the search manipulates. -/
theorem key_lt_of_monthLinear_lt {t u : NDt}
    (h1t : 1 ≤ t.month) (h2t : t.month ≤ 13) (h3t : t.day ≤ 32) (h4t : t.hour ≤ 24)
    (h5t : t.minute ≤ 60) (h1u : 1 ≤ u.month) (h2u : u.month ≤ 13)
    (h : t.monthLinear < u.monthLinear) : t.key < u.key := by
  rw [monthLinear_eta, monthLinear_eta] at h
  have hM : t.year * 14 + t.month + 1 ≤ u.year * 14 + u.month := by omega
  rw [key_eta, key_eta]
  generalize hA : t.year * 14 + t.month = A at hM
  generalize hB : u.year * 14 + u.month = B at hM
  omega

/-- A larger key never belongs to a strictly earlier month, for field values
in the ranges the search manipulates. -/
theorem monthLinear_le_of_key_le {t u : NDt}
    (h1t : 1 ≤ t.month) (h2t : t.month ≤ 13) (h1u : 1 ≤ u.month) (h2u : u.month ≤ 13)
    (h3u : u.day ≤ 32) (h4u : u.hour ≤ 24) (h5u : u.minute ≤ 60)
    (h : t.key ≤ u.key) : t.monthLinear ≤ u.monthLinear := by
  by_contra hcon
  push_neg at hcon
  have := key_lt_of_monthLinear_lt h1u h2u h3u h4u h5u h1t h2t hcon
  omega

theorem hmStage_spec (e : CronEntry) (start : NDt) (hwf : EntryWF e) (hv : start.Valid) :
    (∃ Hh Mi : ℕ,
      hmStage start e = (Mi, Hh, start.day) ∧ Mi ∈ e.minutes ∧ Hh ∈ e.hours ∧
      start.hour * 61 + start.minute < Hh * 61 + Mi ∧
      ∀ h mi : ℕ, h ∈ e.hours → mi ∈ e.minutes →
        start.hour * 61 + start.minute < h * 61 + mi → Hh * 61 + Mi ≤ h * 61 + mi) ∨
    (hmStage start e = (e.minutes.headD 0, e.hours.headD 0, start.day + 1) ∧
      ∀ h mi : ℕ, h ∈ e.hours → mi ∈ e.minutes →
        h * 61 + mi ≤ start.hour * 61 + start.minute) := by
  obtain ⟨hMne, hMs, hMb, hHne, hHs, hHb, _, _, _, _, _, _, _, _, _⟩ := hwf
  have hvh : start.hour ≤ 23 := hv.2.2.2.2.2.1
  have hvmi : start.minute ≤ 59 := hv.2.2.2.2.2.2
  have hM0 : e.minutes.headD 0 ∈ e.minutes := headD_mem hMne 0
  have hM0b : e.minutes.headD 0 ≤ 59 := hMb _ hM0
  unfold hmStage
  dsimp only
  by_cases hc1 : index_of_nearest_number e.minutes (start.minute + 1) < ((e.minutes.length : ℤ))
  · rw [if_pos hc1]
    dsimp only
    obtain ⟨hMi1mem, hMi1ge, hMi1min⟩ := ion_found hMs hc1 0
    by_cases hc2 : index_of_nearest_number e.hours start.hour < ((e.hours.length : ℤ))
    · rw [if_pos hc2]
      obtain ⟨hH2mem, hH2ge, hH2min⟩ := ion_found hHs hc2 0
      by_cases hc3 : e.hours.getD (index_of_nearest_number e.hours start.hour).toNat 0 ≠ start.hour
      · rw [if_pos hc3]
        left
        refine ⟨e.hours.getD (index_of_nearest_number e.hours start.hour).toNat 0,
          e.minutes.headD 0, rfl, hM0, hH2mem, ?_, ?_⟩
        · omega
        · intro h mi hh hmi hgt
          have hSH : start.hour ∉ e.hours := fun hmem =>
            hc3 (le_antisymm (hH2min start.hour hmem (le_refl _)) hH2ge)
          have hmib := hMb mi hmi
          have hhb := hHb h hh
          have hne : h ≠ start.hour := fun hcon => hSH (hcon ▸ hh)
          have hge : start.hour ≤ h := by omega
          have h2le := hH2min h hh hge
          have hheadmi := headD_min hMs hmi 0
          omega
      · rw [if_neg hc3]
        push_neg at hc3
        left
        refine ⟨e.hours.getD (index_of_nearest_number e.hours start.hour).toNat 0,
          e.minutes.getD (index_of_nearest_number e.minutes (start.minute + 1)).toNat 0,
          rfl, hMi1mem, hH2mem, ?_, ?_⟩
        · omega
        · intro h mi hh hmi hgt
          have hmib := hMb mi hmi
          have hhb := hHb h hh
          have hge : start.hour ≤ h := by omega
          rcases Nat.eq_or_lt_of_le hge with heq | hlt
          · have hmigt : start.minute < mi := by omega
            have := hMi1min mi hmi (by omega)
            omega
          · have hMi1b := hMb _ hMi1mem
            omega
    · rw [if_neg hc2]
      right
      refine ⟨rfl, ?_⟩
      intro h mi hh hmi
      have hhlt := @ion_notfound ℕ _ e.hours start.hour hHs (by omega) h hh
      have hmib := hMb mi hmi
      omega
  · rw [if_neg hc1]
    dsimp only
    have hnomi := @ion_notfound ℕ _ e.minutes (start.minute + 1) hMs (by omega)
    by_cases hc2 : index_of_nearest_number e.hours (start.hour + 1) < ((e.hours.length : ℤ))
    · rw [if_pos hc2]
      obtain ⟨hH2mem, hH2ge, hH2min⟩ := ion_found hHs hc2 0
      have hc3 : e.hours.getD (index_of_nearest_number e.hours (start.hour + 1)).toNat 0
          ≠ start.hour := by omega
      rw [if_pos hc3]
      left
      refine ⟨e.hours.getD (index_of_nearest_number e.hours (start.hour + 1)).toNat 0,
        e.minutes.headD 0, rfl, hM0, hH2mem, ?_, ?_⟩
      · omega
      · intro h mi hh hmi hgt
        have hmib := hMb mi hmi
        have hhb := hHb h hh
        by_cases hcase : h = start.hour
        · subst hcase
          have := hnomi mi hmi
          omega
        · have hge : start.hour ≤ h := by omega
          have h2le := hH2min h hh (by omega)
          have hheadmi := headD_min hMs hmi 0
          omega
    · rw [if_neg hc2]
      right
      refine ⟨rfl, ?_⟩
      intro h mi hh hmi
      have hhlt := @ion_notfound ℕ _ e.hours (start.hour + 1) hHs (by omega) h hh
      have hmilt := hnomi mi hmi
      have hmib := hMb mi hmi
      omega

theorem preMonthState_spec (e : CronEntry) (start : NDt) (hwf : EntryWF e) (hv : start.Valid) :
    (∃ D Hh Mi : ℕ,
      preMonthState start e = ⟨start.year, start.month, D, Hh, Mi, false⟩ ∧
      Mi ∈ e.minutes ∧ Hh ∈ e.hours ∧
      D ∈ e.merge_days_and_days_of_week start.year start.month none ∧
      start.key < (NDt.mk start.year start.month D Hh Mi).key ∧
      (∀ d h mi : ℕ, d ∈ e.merge_days_and_days_of_week start.year start.month none →
        h ∈ e.hours → mi ∈ e.minutes →
        start.key < (NDt.mk start.year start.month d h mi).key →
        (NDt.mk start.year start.month D Hh Mi).key ≤
          (NDt.mk start.year start.month d h mi).key)) ∨
    (preMonthState start e =
        ⟨start.year, start.month + 1, 1, e.hours.headD 0, e.minutes.headD 0, true⟩ ∧
      (∀ d h mi : ℕ, d ∈ e.merge_days_and_days_of_week start.year start.month none →
        h ∈ e.hours → mi ∈ e.minutes →
        (NDt.mk start.year start.month d h mi).key ≤ start.key)) := by
  have hwf2 := hwf
  obtain ⟨hMne, hMs, hMb, hHne, hHs, hHb, _, _, _, _, _, _, _, _, _⟩ := hwf2
  have hvh : start.hour ≤ 23 := hv.2.2.2.2.2.1
  have hvmi : start.minute ≤ 59 := hv.2.2.2.2.2.2
  have hvd1 : 1 ≤ start.day := hv.2.2.2.1
  have hvd31 : start.day ≤ 31 := le_trans hv.2.2.2.2.1 (daysInMonth_le_31 _ _)
  have hM0 : e.minutes.headD 0 ∈ e.minutes := headD_mem hMne 0
  have hH0 : e.hours.headD 0 ∈ e.hours := headD_mem hHne 0
  have hM0b : e.minutes.headD 0 ≤ 59 := hMb _ hM0
  have hH0b : e.hours.headD 0 ≤ 23 := hHb _ hH0
  have hddS := merge_sorted e start.year start.month none
  have hdb : ∀ x ∈ e.merge_days_and_days_of_week start.year start.month none,
      1 ≤ x ∧ x ≤ 31 := fun x hx =>
    ⟨(merge_bounds hx).1, le_trans (merge_bounds hx).2 (daysInMonth_le_31 _ _)⟩
  rcases hmStage_spec e start hwf hv with
    ⟨Hh, Mi, hpair, hMiM, hHhH, hpgt, hpmin⟩ | ⟨hpair, hpno⟩
  · -- hour / minute stage found a pair within start's day
    have hHhb : Hh ≤ 23 := hHb _ hHhH
    have hMib : Mi ≤ 59 := hMb _ hMiM
    unfold preMonthState
    rw [hpair]
    dsimp only
    by_cases hc3 : index_of_nearest_number
        (e.merge_days_and_days_of_week start.year start.month none) start.day <
        (((e.merge_days_and_days_of_week start.year start.month none).length : ℤ))
    · rw [if_pos hc3]
      try dsimp only
      obtain ⟨hDmem, hDge, hDmin⟩ := ion_found hddS hc3 0
      have hDb := hdb _ hDmem
      by_cases hc4 : (e.merge_days_and_days_of_week start.year start.month none).getD
          (index_of_nearest_number
            (e.merge_days_and_days_of_week start.year start.month none) start.day).toNat 0
          ≠ start.day
      · rw [if_pos hc4]
        left
        refine ⟨(e.merge_days_and_days_of_week start.year start.month none).getD
          (index_of_nearest_number
            (e.merge_days_and_days_of_week start.year start.month none) start.day).toNat 0,
          e.hours.headD 0, e.minutes.headD 0, rfl, hM0, hH0, hDmem, ?_, ?_⟩
        · simp only [key_eta]
          try dsimp only
          omega
        · intro d h mi hd hh hmi hgt
          have hdbd := hdb d hd
          have hhb := hHb h hh
          have hmib := hMb mi hmi
          have hsd_notin : start.day ∉
              e.merge_days_and_days_of_week start.year start.month none :=
            fun hmem => hc4 (le_antisymm (hDmin _ hmem le_rfl) hDge)
          simp only [key_eta] at hgt ⊢
          try dsimp only at hgt ⊢
          have hdge : start.day ≤ d := by omega
          have hdne : d ≠ start.day := fun hcon => hsd_notin (hcon ▸ hd)
          have hD3le := hDmin d hd (by omega)
          have hhh := headD_min hHs hh 0
          have hmm := headD_min hMs hmi 0
          omega
      · rw [if_neg hc4]
        push_neg at hc4
        left
        refine ⟨(e.merge_days_and_days_of_week start.year start.month none).getD
          (index_of_nearest_number
            (e.merge_days_and_days_of_week start.year start.month none) start.day).toNat 0,
          Hh, Mi, rfl, hMiM, hHhH, hDmem, ?_, ?_⟩
        · simp only [key_eta]
          try dsimp only
          omega
        · intro d h mi hd hh hmi hgt
          have hdbd := hdb d hd
          have hhb := hHb h hh
          have hmib := hMb mi hmi
          simp only [key_eta] at hgt ⊢
          try dsimp only at hgt ⊢
          have hdge : start.day ≤ d := by omega
          rcases Nat.eq_or_lt_of_le hdge with heq | hlt
          · have hpgt2 : start.hour * 61 + start.minute < h * 61 + mi := by omega
            have := hpmin h mi hh hmi hpgt2
            omega
          · omega
    · rw [if_neg hc3]
      right
      have hnod := @ion_notfound ℕ _
        (e.merge_days_and_days_of_week start.year start.month none) start.day hddS (by omega)
      refine ⟨rfl, ?_⟩
      intro d h mi hd hh hmi
      have hdlt := hnod d hd
      have hdbd := hdb d hd
      have hhb := hHb h hh
      have hmib := hMb mi hmi
      simp only [key_eta]
      try dsimp only
      omega
  · -- hour / minute stage wrapped to the next day
    unfold preMonthState
    rw [hpair]
    dsimp only
    by_cases hc3 : index_of_nearest_number
        (e.merge_days_and_days_of_week start.year start.month none) (start.day + 1) <
        (((e.merge_days_and_days_of_week start.year start.month none).length : ℤ))
    · rw [if_pos hc3]
      try dsimp only
      obtain ⟨hDmem, hDge, hDmin⟩ := ion_found hddS hc3 0
      have hDb := hdb _ hDmem
      have hc4 : (e.merge_days_and_days_of_week start.year start.month none).getD
          (index_of_nearest_number
            (e.merge_days_and_days_of_week start.year start.month none) (start.day + 1)).toNat 0
          ≠ start.day := by omega
      rw [if_pos hc4]
      left
      refine ⟨(e.merge_days_and_days_of_week start.year start.month none).getD
        (index_of_nearest_number
          (e.merge_days_and_days_of_week start.year start.month none) (start.day + 1)).toNat 0,
        e.hours.headD 0, e.minutes.headD 0, rfl, hM0, hH0, hDmem, ?_, ?_⟩
      · simp only [key_eta]
        try dsimp only
        omega
      · intro d h mi hd hh hmi hgt
        have hdbd := hdb d hd
        have hhb := hHb h hh
        have hmib := hMb mi hmi
        have hple := hpno h mi hh hmi
        simp only [key_eta] at hgt ⊢
        try dsimp only at hgt ⊢
        rcases Nat.lt_or_ge d (start.day + 1) with hlt | hge2
        · omega
        · have hD3le := hDmin d hd (by omega)
          have hhh := headD_min hHs hh 0
          have hmm := headD_min hMs hmi 0
          omega
    · rw [if_neg hc3]
      right
      have hnod := @ion_notfound ℕ _
        (e.merge_days_and_days_of_week start.year start.month none) (start.day + 1) hddS
        (by omega)
      refine ⟨rfl, ?_⟩
      intro d h mi hd hh hmi
      have hdlt := hnod d hd
      have hdbd := hdb d hd
      have hhb := hHb h hh
      have hmib := hMb mi hmi
      have hple := hpno h mi hh hmi
      simp only [key_eta]
      try dsimp only
      omega

/-- A candidate month whose merge list is non-empty yields the final result
of the month loop: the head day with minimal hour and minute. -/
theorem monthCandidate_final (e : CronEntry) (start : NDt) (hwf : EntryWF e) (hv : start.Valid) :
    ∀ (y2 m2 d0 : ℕ) (rest : List ℕ),
      start.year ≤ y2 → 1 ≤ m2 → m2 ≤ 12 → m2 ∈ e.months →
      start.monthLinear < 12 * y2 + m2 →
      (∀ t : NDt, t.Valid → MatchesEntry e t → start.key < t.key →
        12 * y2 + m2 ≤ t.monthLinear) →
      e.merge_days_and_days_of_week y2 m2 none = d0 :: rest →
      ((NDt.mk y2 m2 d0 (e.hours.headD 0) (e.minutes.headD 0)).Valid ∧
       MatchesEntry e (NDt.mk y2 m2 d0 (e.hours.headD 0) (e.minutes.headD 0)) ∧
       start.key < (NDt.mk y2 m2 d0 (e.hours.headD 0) (e.minutes.headD 0)).key ∧
       ∀ t : NDt, t.Valid → MatchesEntry e t → start.key < t.key →
         (NDt.mk y2 m2 d0 (e.hours.headD 0) (e.minutes.headD 0)).key ≤ t.key) := by
  have hwf2 := hwf
  obtain ⟨hMne, hMs, hMb, hHne, hHs, hHb, _, _, _, hMOne, hMOs, hMOb, _, _, _⟩ := hwf2
  have hv1 : 1 ≤ start.year := hv.1
  have hvmo1 : 1 ≤ start.month := hv.2.1
  have hvmo12 : start.month ≤ 12 := hv.2.2.1
  have hvd31 : start.day ≤ 31 := le_trans hv.2.2.2.2.1 (daysInMonth_le_31 _ _)
  have hvh : start.hour ≤ 23 := hv.2.2.2.2.2.1
  have hvmi : start.minute ≤ 59 := hv.2.2.2.2.2.2
  have hM0 : e.minutes.headD 0 ∈ e.minutes := headD_mem hMne 0
  have hH0 : e.hours.headD 0 ∈ e.hours := headD_mem hHne 0
  have hM0b : e.minutes.headD 0 ≤ 59 := hMb _ hM0
  have hH0b : e.hours.headD 0 ≤ 23 := hHb _ hH0
  intro y2 m2 d0 rest hy2 hm21 hm212 hm2mem hlin hbound2 hmmEq
  have hd0mem : d0 ∈ e.merge_days_and_days_of_week y2 m2 none := by
    rw [hmmEq]
    exact List.mem_cons_self d0 rest
  have hd0b := merge_bounds hd0mem
  have hd0b31 : d0 ≤ 31 := le_trans hd0b.2 (daysInMonth_le_31 _ _)
  refine ⟨⟨by dsimp only; omega, hm21, hm212, hd0b.1, hd0b.2, hH0b, hM0b⟩,
    ⟨hM0, hH0, hm2mem, hd0mem⟩, ?_, ?_⟩
  · refine key_lt_of_monthLinear_lt (by omega) (by omega) (by omega) (by omega) (by omega)
      (by try dsimp only; omega) (by try dsimp only; omega) ?_
    simp only [monthLinear_eta] at hlin ⊢
    try dsimp only
    omega
  · intro t ht hmt hkt
    have hb2 := hbound2 t ht hmt hkt
    have htmo1 : 1 ≤ t.month := ht.2.1
    have htmo12 : t.month ≤ 12 := ht.2.2.1
    rcases Nat.eq_or_lt_of_le hb2 with heq | hlt
    · have hty : t.year = y2 := by
        simp only [monthLinear_eta] at heq
        omega
      have htm : t.month = m2 := by
        simp only [monthLinear_eta] at heq
        omega
      have htd : t.day ∈ e.merge_days_and_days_of_week y2 m2 none := by
        have := hmt.2.2.2
        rwa [hty, htm] at this
      rw [hmmEq] at htd
      have hd0le : d0 ≤ t.day := by
        have hsort : (d0 :: rest).Pairwise (· < ·) := by
          have := merge_sorted e y2 m2 none
          rwa [hmmEq] at this
        have := headD_min hsort htd 0
        simpa using this
      have hhle := headD_min hHs hmt.2.1 0
      have hmle := headD_min hMs hmt.1 0
      simp only [key_eta]
      try dsimp only
      omega
    · have hrlin : (NDt.mk y2 m2 d0 (e.hours.headD 0) (e.minutes.headD 0)).monthLinear
          < t.monthLinear := by
        simp only [monthLinear_eta]
        try dsimp only
        simp only [monthLinear_eta] at hlt
        omega
      exact le_of_lt (key_lt_of_monthLinear_lt (by try dsimp only; omega) (by try dsimp only; omega)
        (by try dsimp only; omega) (by try dsimp only; omega) (by try dsimp only; omega)
        (by omega) (by omega) hrlin)

theorem monthLoop_ph_spec (e : CronEntry) (start : NDt) (hwf : EntryWF e) (hv : start.Valid) :
    ∀ (fuel y mo : ℕ),
    start.year ≤ y → 1 ≤ mo → mo ≤ 13 →
    start.monthLinear < 12 * y + mo →
    (∀ t : NDt, t.Valid → MatchesEntry e t → start.key < t.key → 12 * y + mo ≤ t.monthLinear) →
    (∀ r : NDt,
      monthLoop e start fuel ⟨y, mo, 1, e.hours.headD 0, e.minutes.headD 0, true⟩ = some r →
      r.Valid ∧ MatchesEntry e r ∧ start.key < r.key ∧
        ∀ t : NDt, t.Valid → MatchesEntry e t → start.key < t.key → r.key ≤ t.key) ∧
    (monthLoop e start fuel ⟨y, mo, 1, e.hours.headD 0, e.minutes.headD 0, true⟩ = none →
      ∀ t : NDt, t.Valid → MatchesEntry e t → start.key < t.key →
        12 * y + mo + fuel ≤ t.monthLinear) := by
  have hwf2 := hwf
  obtain ⟨hMne, hMs, hMb, hHne, hHs, hHb, _, _, _, hMOne, hMOs, hMOb, _, _, _⟩ := hwf2
  have hv1 : 1 ≤ start.year := hv.1
  have hvmo1 : 1 ≤ start.month := hv.2.1
  have hvmo12 : start.month ≤ 12 := hv.2.2.1
  have hvd31 : start.day ≤ 31 := le_trans hv.2.2.2.2.1 (daysInMonth_le_31 _ _)
  have hvh : start.hour ≤ 23 := hv.2.2.2.2.2.1
  have hvmi : start.minute ≤ 59 := hv.2.2.2.2.2.2
  have hM0 : e.minutes.headD 0 ∈ e.minutes := headD_mem hMne 0
  have hH0 : e.hours.headD 0 ∈ e.hours := headD_mem hHne 0
  have hM0b : e.minutes.headD 0 ≤ 59 := hMb _ hM0
  have hH0b : e.hours.headD 0 ≤ 23 := hHb _ hH0
  have hfinish := monthCandidate_final e start hwf hv
  intro fuel
  induction fuel with
  | zero =>
    intro y mo h1 h2 h3 h4 hbound
    constructor
    · intro r hr
      exact absurd hr (by simp [monthLoop])
    · intro _ t ht hmt hkt
      have := hbound t ht hmt hkt
      omega
  | succ n ih =>
    intro y mo h1 h2 h3 h4 hbound
    simp only [monthLoop]
    try dsimp only
    by_cases hc : index_of_nearest_number e.months mo < ((e.months.length : ℤ))
    · rw [if_pos hc]
      obtain ⟨hm2mem, hm2ge, hm2min⟩ := ion_found hMOs hc 0
      have hm2b := hMOb _ hm2mem
      -- both branches of the `≠ start.month` test produce the same reset state
      rw [ite_self]
      have hstep : ∀ t : NDt, t.Valid → MatchesEntry e t → start.key < t.key →
          12 * y + e.months.getD (index_of_nearest_number e.months mo).toNat 0 ≤
            t.monthLinear := by
        intro t ht hmt hkt
        have h0 := hbound t ht hmt hkt
        have htmo := hmt.2.2.1
        have htb := hMOb _ htmo
        have htmo1 : 1 ≤ t.month := ht.2.1
        by_cases hty : t.year = y
        · have hmole : mo ≤ t.month := by
            simp only [monthLinear_eta] at h0
            omega
          have := hm2min t.month htmo hmole
          simp only [monthLinear_eta]
          omega
        · simp only [monthLinear_eta] at h0 ⊢
          omega
      try dsimp only
      rcases hmm : e.merge_days_and_days_of_week y
          (e.months.getD (index_of_nearest_number e.months mo).toNat 0) none with _ | ⟨d0, rest⟩
      · have hnomatch : ∀ t : NDt, t.Valid → MatchesEntry e t → start.key < t.key →
            12 * y + (e.months.getD (index_of_nearest_number e.months mo).toNat 0 + 1) ≤
              t.monthLinear := by
          intro t ht hmt hkt
          have hs := hstep t ht hmt hkt
          have htmo1 : 1 ≤ t.month := ht.2.1
          have htmo12 : t.month ≤ 12 := ht.2.2.1
          rcases Nat.eq_or_lt_of_le hs with heq | hlt
          · exfalso
            have hty : t.year = y := by
              simp only [monthLinear_eta] at heq
              omega
            have htm : t.month = e.months.getD (index_of_nearest_number e.months mo).toNat 0 := by
              simp only [monthLinear_eta] at heq
              omega
            have htd := hmt.2.2.2
            rw [hty, htm, hmm] at htd
            exact List.not_mem_nil _ htd
          · omega
        have := ih y (e.months.getD (index_of_nearest_number e.months mo).toNat 0 + 1)
          h1 (by omega) (by omega) (by omega) hnomatch
        constructor
        · intro r hr
          exact this.1 r hr
        · intro hr t ht hmt hkt
          have := this.2 hr t ht hmt hkt
          omega
      · have hres := hfinish y (e.months.getD (index_of_nearest_number e.months mo).toNat 0)
          d0 rest h1 (by omega) (by omega) hm2mem (by omega) hstep hmm
        constructor
        · intro r hr
          injection hr with hr2
          subst hr2
          exact hres
        · intro hr
          exact absurd hr (by simp)
    · have hnotin := @ion_notfound ℕ _ e.months mo hMOs (by omega)
      rw [if_neg hc]
      try dsimp only
      have hmh : e.months.headD 0 ∈ e.months := headD_mem hMOne 0
      have hmhb := hMOb _ hmh
      have hstep : ∀ t : NDt, t.Valid → MatchesEntry e t → start.key < t.key →
          12 * (y + 1) + e.months.headD 0 ≤ t.monthLinear := by
        intro t ht hmt hkt
        have h0 := hbound t ht hmt hkt
        have htmo := hmt.2.2.1
        have htb := hMOb _ htmo
        have htmo1 : 1 ≤ t.month := ht.2.1
        have htlt := hnotin t.month htmo
        have hthd := headD_min hMOs htmo 0
        by_cases hty : t.year = y
        · exfalso
          simp only [monthLinear_eta] at h0
          omega
        · simp only [monthLinear_eta] at h0 ⊢
          omega
      rcases hmm : e.merge_days_and_days_of_week (y + 1) (e.months.headD 0) none
          with _ | ⟨d0, rest⟩
      · have hnomatch : ∀ t : NDt, t.Valid → MatchesEntry e t → start.key < t.key →
            12 * (y + 1) + (e.months.headD 0 + 1) ≤ t.monthLinear := by
          intro t ht hmt hkt
          have hs := hstep t ht hmt hkt
          have htmo1 : 1 ≤ t.month := ht.2.1
          have htmo12 : t.month ≤ 12 := ht.2.2.1
          rcases Nat.eq_or_lt_of_le hs with heq | hlt
          · exfalso
            have hty : t.year = y + 1 := by
              simp only [monthLinear_eta] at heq
              omega
            have htm : t.month = e.months.headD 0 := by
              simp only [monthLinear_eta] at heq
              omega
            have htd := hmt.2.2.2
            rw [hty, htm, hmm] at htd
            exact List.not_mem_nil _ htd
          · omega
        have := ih (y + 1) (e.months.headD 0 + 1)
          (by omega) (by omega) (by omega) (by omega) hnomatch
        constructor
        · intro r hr
          exact this.1 r hr
        · intro hr t ht hmt hkt
          have := this.2 hr t ht hmt hkt
          omega
      · have hres := hfinish (y + 1) (e.months.headD 0) d0 rest (by omega) (by omega)
          (by omega) hmh (by omega) hstep hmm
        constructor
        · intro r hr
          injection hr with hr2
          subst hr2
          exact hres
        · intro hr
          exact absurd hr (by simp)

theorem monthLoop_false_spec (e : CronEntry) (start : NDt) (hwf : EntryWF e) (hv : start.Valid)
    (D Hh Mi : ℕ) (hMiM : Mi ∈ e.minutes) (hHhH : Hh ∈ e.hours)
    (hD : D ∈ e.merge_days_and_days_of_week start.year start.month none)
    (hgt : start.key < (NDt.mk start.year start.month D Hh Mi).key)
    (hmin : ∀ d h mi : ℕ, d ∈ e.merge_days_and_days_of_week start.year start.month none →
      h ∈ e.hours → mi ∈ e.minutes →
      start.key < (NDt.mk start.year start.month d h mi).key →
      (NDt.mk start.year start.month D Hh Mi).key ≤ (NDt.mk start.year start.month d h mi).key) :
    ∀ fuel : ℕ,
    (∀ r : NDt,
      monthLoop e start fuel ⟨start.year, start.month, D, Hh, Mi, false⟩ = some r →
      r.Valid ∧ MatchesEntry e r ∧ start.key < r.key ∧
        ∀ t : NDt, t.Valid → MatchesEntry e t → start.key < t.key → r.key ≤ t.key) ∧
    (monthLoop e start fuel ⟨start.year, start.month, D, Hh, Mi, false⟩ = none →
      ∀ t : NDt, t.Valid → MatchesEntry e t → start.key < t.key →
        start.monthLinear + fuel ≤ t.monthLinear) := by
  have hwf2 := hwf
  obtain ⟨hMne, hMs, hMb, hHne, hHs, hHb, _, _, _, hMOne, hMOs, hMOb, _, _, _⟩ := hwf2
  have hv1 : 1 ≤ start.year := hv.1
  have hvmo1 : 1 ≤ start.month := hv.2.1
  have hvmo12 : start.month ≤ 12 := hv.2.2.1
  have hvd31 : start.day ≤ 31 := le_trans hv.2.2.2.2.1 (daysInMonth_le_31 _ _)
  have hvh : start.hour ≤ 23 := hv.2.2.2.2.2.1
  have hvmi : start.minute ≤ 59 := hv.2.2.2.2.2.2
  have hDb := merge_bounds hD
  have hDb31 : D ≤ 31 := le_trans hDb.2 (daysInMonth_le_31 _ _)
  have hHhb : Hh ≤ 23 := hHb _ hHhH
  have hMib : Mi ≤ 59 := hMb _ hMiM
  have hM0 : e.minutes.headD 0 ∈ e.minutes := headD_mem hMne 0
  have hH0 : e.hours.headD 0 ∈ e.hours := headD_mem hHne 0
  have hMLkey : ∀ t : NDt, t.Valid → start.key < t.key →
      start.monthLinear ≤ t.monthLinear := by
    intro t ht hkt
    exact monthLinear_le_of_key_le (by omega) (by omega) (ht.2.1) (by have := ht.2.2.1; omega)
      (by have := le_trans ht.2.2.2.2.1 (daysInMonth_le_31 t.year t.month); omega)
      (by have := ht.2.2.2.2.2.1; omega)
      (by have := ht.2.2.2.2.2.2; omega) (le_of_lt hkt)
  intro fuel
  cases fuel with
  | zero =>
    constructor
    · intro r hr
      exact absurd hr (by simp [monthLoop])
    · intro _ t ht hmt hkt
      have := hMLkey t ht hkt
      omega
  | succ n =>
    simp only [monthLoop]
    try dsimp only
    by_cases hc : index_of_nearest_number e.months start.month < ((e.months.length : ℤ))
    · obtain ⟨hm2mem, hm2ge, hm2min⟩ := ion_found hMOs hc 0
      have hm2b := hMOb _ hm2mem
      rw [if_pos hc]
      by_cases hm2eq : e.months.getD (index_of_nearest_number e.months start.month).toNat 0
          = start.month
      · rw [if_neg (not_not_intro hm2eq)]
        try dsimp only
        rw [if_neg Bool.false_ne_true]
        constructor
        · intro r hr
          injection hr with hr2
          subst hr2
          rw [hm2eq]
          have hmonmem : start.month ∈ e.months := by
            rw [hm2eq] at hm2mem
            exact hm2mem
          refine ⟨⟨hv1, hvmo1, hvmo12, hDb.1, hDb.2, hHhb, hMib⟩,
            ⟨hMiM, hHhH, hmonmem, hD⟩, hgt, ?_⟩
          intro t ht hmt hkt
          have hml := hMLkey t ht hkt
          obtain ⟨ty, tmo, td, th, tmi⟩ := t
          have htmo1 : 1 ≤ tmo := ht.2.1
          have htmo12 : tmo ≤ 12 := ht.2.2.1
          have htd31 : td ≤ 31 := le_trans ht.2.2.2.2.1 (daysInMonth_le_31 _ _)
          have hth : th ≤ 23 := ht.2.2.2.2.2.1
          have htmi : tmi ≤ 59 := ht.2.2.2.2.2.2
          simp only [monthLinear_eta] at hml
          try dsimp only at hml
          rcases Nat.eq_or_lt_of_le hml with heq | hlt
          · have hty : ty = start.year := by omega
            have htm : tmo = start.month := by omega
            subst hty
            subst htm
            exact hmin td th tmi hmt.2.2.2 hmt.2.1 hmt.1 hkt
          · refine le_of_lt (key_lt_of_monthLinear_lt (by try dsimp only; omega)
              (by try dsimp only; omega) (by try dsimp only; omega) (by try dsimp only; omega)
              (by try dsimp only; omega) (by try dsimp only; omega) (by try dsimp only; omega) ?_)
            simp only [monthLinear_eta]
            try dsimp only
            omega
        · intro hr
          exact absurd hr (by simp)
      · rw [if_pos hm2eq]
        try dsimp only
        have hm2gt : start.month <
            e.months.getD (index_of_nearest_number e.months start.month).toNat 0 := by
          omega
        have hstep : ∀ t : NDt, t.Valid → MatchesEntry e t → start.key < t.key →
            12 * start.year +
              e.months.getD (index_of_nearest_number e.months start.month).toNat 0 ≤
              t.monthLinear := by
          intro t ht hmt hkt
          have hml := hMLkey t ht hkt
          have htmo := hmt.2.2.1
          have htb := hMOb _ htmo
          have htmo1 : 1 ≤ t.month := ht.2.1
          by_cases hty : t.year = start.year
          · have hmole : start.month ≤ t.month := by
              simp only [monthLinear_eta] at hml
              omega
            have := hm2min t.month htmo hmole
            simp only [monthLinear_eta]
            omega
          · simp only [monthLinear_eta] at hml ⊢
            omega
        rcases hmm : e.merge_days_and_days_of_week start.year
            (e.months.getD (index_of_nearest_number e.months start.month).toNat 0) none
            with _ | ⟨d0, rest⟩
        · have hnomatch : ∀ t : NDt, t.Valid → MatchesEntry e t → start.key < t.key →
              12 * start.year +
                (e.months.getD (index_of_nearest_number e.months start.month).toNat 0 + 1) ≤
                t.monthLinear := by
            intro t ht hmt hkt
            have hs := hstep t ht hmt hkt
            have htmo1 : 1 ≤ t.month := ht.2.1
            have htmo12 : t.month ≤ 12 := ht.2.2.1
            rcases Nat.eq_or_lt_of_le hs with heq | hlt
            · exfalso
              have hty : t.year = start.year := by
                simp only [monthLinear_eta] at heq
                omega
              have htm : t.month =
                  e.months.getD (index_of_nearest_number e.months start.month).toNat 0 := by
                simp only [monthLinear_eta] at heq
                omega
              have htd := hmt.2.2.2
              rw [hty, htm, hmm] at htd
              exact List.not_mem_nil _ htd
            · omega
          have := monthLoop_ph_spec e start hwf hv n start.year
            (e.months.getD (index_of_nearest_number e.months start.month).toNat 0 + 1)
            (le_refl _) (by omega) (by omega) (by simp only [monthLinear_eta]; omega) hnomatch
          constructor
          · intro r hr
            exact this.1 r hr
          · intro hr t ht hmt hkt
            have := this.2 hr t ht hmt hkt
            simp only [monthLinear_eta] at *
            omega
        · have hres := monthCandidate_final e start hwf hv start.year
            (e.months.getD (index_of_nearest_number e.months start.month).toNat 0) d0 rest
            (le_refl _) (by omega) (by omega) hm2mem
            (by simp only [monthLinear_eta]; omega) hstep hmm
          constructor
          · intro r hr
            injection hr with hr2
            subst hr2
            exact hres
          · intro hr
            exact absurd hr (by simp)
    · have hnotin := @ion_notfound ℕ _ e.months start.month hMOs (by omega)
      rw [if_neg hc]
      try dsimp only
      have hmh : e.months.headD 0 ∈ e.months := headD_mem hMOne 0
      have hmhb := hMOb _ hmh
      have hstep : ∀ t : NDt, t.Valid → MatchesEntry e t → start.key < t.key →
          12 * (start.year + 1) + e.months.headD 0 ≤ t.monthLinear := by
        intro t ht hmt hkt
        have hml := hMLkey t ht hkt
        have htmo := hmt.2.2.1
        have htb := hMOb _ htmo
        have htmo1 : 1 ≤ t.month := ht.2.1
        have htlt := hnotin t.month htmo
        have hthd := headD_min hMOs htmo 0
        by_cases hty : t.year = start.year
        · exfalso
          simp only [monthLinear_eta] at hml
          omega
        · simp only [monthLinear_eta] at hml ⊢
          omega
      rcases hmm : e.merge_days_and_days_of_week (start.year + 1) (e.months.headD 0) none
          with _ | ⟨d0, rest⟩
      · have hnomatch : ∀ t : NDt, t.Valid → MatchesEntry e t → start.key < t.key →
            12 * (start.year + 1) + (e.months.headD 0 + 1) ≤ t.monthLinear := by
          intro t ht hmt hkt
          have hs := hstep t ht hmt hkt
          have htmo1 : 1 ≤ t.month := ht.2.1
          have htmo12 : t.month ≤ 12 := ht.2.2.1
          rcases Nat.eq_or_lt_of_le hs with heq | hlt
          · exfalso
            have hty : t.year = start.year + 1 := by
              simp only [monthLinear_eta] at heq
              omega
            have htm : t.month = e.months.headD 0 := by
              simp only [monthLinear_eta] at heq
              omega
            have htd := hmt.2.2.2
            rw [hty, htm, hmm] at htd
            exact List.not_mem_nil _ htd
          · omega
        have := monthLoop_ph_spec e start hwf hv n (start.year + 1) (e.months.headD 0 + 1)
          (by omega) (by omega) (by omega) (by simp only [monthLinear_eta]; omega) hnomatch
        constructor
        · intro r hr
          exact this.1 r hr
        · intro hr t ht hmt hkt
          have := this.2 hr t ht hmt hkt
          simp only [monthLinear_eta] at *
          omega
      · have hres := monthCandidate_final e start hwf hv (start.year + 1) (e.months.headD 0)
          d0 rest (by omega) (by omega) (by omega) hmh
          (by simp only [monthLinear_eta]; omega) hstep hmm
        constructor
        · intro r hr
          injection hr with hr2
          subst hr2
          exact hres
        · intro hr
          exact absurd hr (by simp)

theorem nwc_spec (e : CronEntry) (start : NDt) (Y : ℤ)
    (hwf : EntryWF e) (hv : start.Valid) :
    (∀ r : NDt, next_wallclock_datetime start e Y = some r →
      r.Valid ∧ MatchesEntry e r ∧ start.key < r.key ∧
        ∀ t : NDt, t.Valid → MatchesEntry e t → start.key < t.key → r.key ≤ t.key) ∧
    (next_wallclock_datetime start e Y = none →
      ∀ t : NDt, t.Valid → MatchesEntry e t → start.key < t.key →
        start.monthLinear + 12 * (max Y 0).toNat ≤ t.monthLinear) := by
  have hv1 : 1 ≤ start.year := hv.1
  have hvmo1 : 1 ≤ start.month := hv.2.1
  have hvmo12 : start.month ≤ 12 := hv.2.2.1
  have hvd31 : start.day ≤ 31 := le_trans hv.2.2.2.2.1 (daysInMonth_le_31 _ _)
  have hvh : start.hour ≤ 23 := hv.2.2.2.2.2.1
  have hvmi : start.minute ≤ 59 := hv.2.2.2.2.2.2
  unfold next_wallclock_datetime
  rcases preMonthState_spec e start hwf hv with
    ⟨D, Hh, Mi, hps, hMiM, hHhH, hD, hgt, hmin⟩ | ⟨hps, hno⟩
  · rw [hps]
    have hmain := monthLoop_false_spec e start hwf hv D Hh Mi hMiM hHhH hD hgt hmin
      ((max Y 0).toNat * 12)
    refine ⟨hmain.1, ?_⟩
    intro hr t ht hmt hkt
    have := hmain.2 hr t ht hmt hkt
    omega
  · rw [hps]
    have hbound : ∀ t : NDt, t.Valid → MatchesEntry e t → start.key < t.key →
        12 * start.year + (start.month + 1) ≤ t.monthLinear := by
      intro t ht hmt hkt
      have hml : start.monthLinear ≤ t.monthLinear :=
        monthLinear_le_of_key_le (by omega) (by omega) (ht.2.1) (by have := ht.2.2.1; omega)
          (by have := le_trans ht.2.2.2.2.1 (daysInMonth_le_31 t.year t.month); omega)
          (by have := ht.2.2.2.2.2.1; omega) (by have := ht.2.2.2.2.2.2; omega) (le_of_lt hkt)
      obtain ⟨ty, tmo, td, th, tmi⟩ := t
      simp only [monthLinear_eta] at hml ⊢
      try dsimp only at hml ⊢
      have htmo1 : 1 ≤ tmo := ht.2.1
      have htmo12 : tmo ≤ 12 := ht.2.2.1
      rcases Nat.eq_or_lt_of_le hml with heq | hlt
      · exfalso
        have hty : ty = start.year := by omega
        have htm : tmo = start.month := by omega
        subst hty
        subst htm
        have := hno td th tmi hmt.2.2.2 hmt.2.1 hmt.1
        omega
      · omega
    have hmain := monthLoop_ph_spec e start hwf hv ((max Y 0).toNat * 12) start.year
      (start.month + 1) (le_refl _) (by omega) (by omega)
      (by simp only [monthLinear_eta]; omega) hbound
    refine ⟨hmain.1, ?_⟩
    intro hr t ht hmt hkt
    have := hmain.2 hr t ht hmt hkt
    simp only [monthLinear_eta] at *
    omega

/-- C1: for a well-formed schedule, a valid start and any budget,
`_next_wallclock_datetime` returns the chronologically earliest valid civil
timestamp strictly after `start` whose minute, hour and month lie in the
schedule's sets and whose day lies in the merged day / day-of-week set of
its own month; it returns `None` only when every such timestamp lies at
least `max(maxYears, 0) * 12` month-steps beyond `start`'s month. -/
theorem c1_next_wallclock_datetime (e : CronEntry) (start : NDt) (Y : ℤ)
    (hwf : EntryWF e) (hv : start.Valid) :
    (∀ r : NDt, next_wallclock_datetime start e Y = some r →
      r.Valid ∧ MatchesEntry e r ∧ start.key < r.key ∧
        ∀ t : NDt, t.Valid → MatchesEntry e t → start.key < t.key → r.key ≤ t.key) ∧
    (next_wallclock_datetime start e Y = none →
      ∀ t : NDt, t.Valid → MatchesEntry e t → start.key < t.key →
        start.monthLinear + 12 * (max Y 0).toNat ≤ t.monthLinear) :=
  nwc_spec e start Y hwf hv

theorem c1_witness :
    EntryWF ⟨[0], [12], [29], [2], [0, 1, 2, 3, 4, 5, 6, 7], false, false, false, true⟩ ∧
    NDt.Valid ⟨2023, 2, 28, 12, 0⟩ ∧
    (∀ r : NDt,
      next_wallclock_datetime ⟨2023, 2, 28, 12, 0⟩
        ⟨[0], [12], [29], [2], [0, 1, 2, 3, 4, 5, 6, 7], false, false, false, true⟩ 50 = some r →
      MatchesEntry ⟨[0], [12], [29], [2], [0, 1, 2, 3, 4, 5, 6, 7], false, false, false, true⟩ r ∧
        NDt.key ⟨2023, 2, 28, 12, 0⟩ < r.key) :=
  ⟨by decide, by decide, fun r hr =>
    ⟨((c1_next_wallclock_datetime
        ⟨[0], [12], [29], [2], [0, 1, 2, 3, 4, 5, 6, 7], false, false, false, true⟩
        ⟨2023, 2, 28, 12, 0⟩ 50 (by decide) (by decide)).1 r hr).2.1,
      ((c1_next_wallclock_datetime
        ⟨[0], [12], [29], [2], [0, 1, 2, 3, 4, 5, 6, 7], false, false, false, true⟩
        ⟨2023, 2, 28, 12, 0⟩ 50 (by decide) (by decide)).1 r hr).2.2.1⟩⟩

/-! ## Calendar monotonicity (for timestamp reasoning) -/

theorem isLeapYear_iff (y : ℕ) :
    isLeapYear y = true ↔ y % 4 = 0 ∧ (y % 100 ≠ 0 ∨ y % 400 = 0) := by
  unfold isLeapYear
  simp [Bool.and_eq_true, Bool.or_eq_true, beq_iff_eq, bne_iff_ne]

theorem daysBeforeMonth_succ (y mo : ℕ) (h1 : 1 ≤ mo) (h2 : mo ≤ 11) :
    daysBeforeMonth y (mo + 1) = daysBeforeMonth y mo + daysInMonth y mo := by
  interval_cases mo <;>
    cases hle : isLeapYear y <;>
      simp [daysBeforeMonth, daysBeforeMonthTable, daysInMonth, monthLengths, hle]

theorem daysBefore_add_dim_le (y : ℕ) :
    ∀ b a : ℕ, 1 ≤ a → a < b → b ≤ 12 →
    daysBeforeMonth y a + daysInMonth y a ≤ daysBeforeMonth y b := by
  intro b
  induction b with
  | zero =>
    intro a h1 h2 h3
    omega
  | succ k ih =>
    intro a h1 h2 h3
    rcases Nat.lt_or_ge a k with hlt | hge
    · have := ih a h1 hlt (by omega)
      have hk1 : 1 ≤ k := by omega
      rw [daysBeforeMonth_succ y k hk1 (by omega)]
      omega
    · have hak : a = k := by omega
      subst hak
      rw [daysBeforeMonth_succ y a h1 (by omega)]

theorem daysBefore_dim_le_year (y mo : ℕ) (h1 : 1 ≤ mo) (h2 : mo ≤ 12) :
    daysBeforeMonth y mo + daysInMonth y mo ≤ 365 + (if isLeapYear y then 1 else 0) := by
  interval_cases mo <;>
    cases hle : isLeapYear y <;>
      simp [daysBeforeMonth, daysBeforeMonthTable, daysInMonth, monthLengths, hle]

theorem daysBeforeMonth_one (y : ℕ) : daysBeforeMonth y 1 = 0 := rfl

theorem dayNumber_year_succ (y : ℕ) (hy : 1 ≤ y) :
    dayNumber (y + 1) 1 1 = dayNumber y 1 1 + 365 + (if isLeapYear y then 1 else 0) := by
  unfold dayNumber
  rw [daysBeforeMonth_one, daysBeforeMonth_one]
  have hy1 : y + 1 - 1 = y := by omega
  rw [hy1]
  have ha : y % 4 ≠ 0 → y / 4 = (y - 1) / 4 := by omega
  have ha2 : y % 4 = 0 → y / 4 = (y - 1) / 4 + 1 := by omega
  have hb : y % 100 = 0 → y / 100 = (y - 1) / 100 + 1 := by omega
  have hb2 : y % 100 ≠ 0 → y / 100 = (y - 1) / 100 := by omega
  have hc : y % 400 = 0 → y / 400 = (y - 1) / 400 + 1 := by omega
  have hc2 : y % 400 ≠ 0 → y / 400 = (y - 1) / 400 := by omega
  have he : (y - 1) / 100 ≤ (y - 1) / 4 := Nat.div_le_div_left (by omega) (by omega)
  have hf : (y - 1) / 400 ≤ (y - 1) / 100 := Nat.div_le_div_left (by omega) (by omega)
  by_cases hleap : isLeapYear y = true
  · obtain ⟨h4, h100or⟩ := (isLeapYear_iff y).mp hleap
    rw [if_pos hleap]
    have e4 : y / 4 = (y - 1) / 4 + 1 := ha2 h4
    rcases h100or with h100 | h400
    · have e100 : y / 100 = (y - 1) / 100 := hb2 h100
      have h400ne : y % 400 ≠ 0 := fun hh => h100 (by omega)
      have e400 : y / 400 = (y - 1) / 400 := hc2 h400ne
      omega
    · have h100 : y % 100 = 0 := by omega
      have e100 : y / 100 = (y - 1) / 100 + 1 := hb h100
      have e400 : y / 400 = (y - 1) / 400 + 1 := hc h400
      omega
  · have hn := (isLeapYear_iff y).not.mp hleap
    push_neg at hn
    rw [if_neg hleap]
    by_cases h4c : y % 4 = 0
    · obtain ⟨h100, h400ne⟩ := hn h4c
      have e4 : y / 4 = (y - 1) / 4 + 1 := ha2 h4c
      have e100 : y / 100 = (y - 1) / 100 + 1 := hb h100
      have e400 : y / 400 = (y - 1) / 400 := hc2 h400ne
      omega
    · have h100ne : y % 100 ≠ 0 := fun hh => h4c (by omega)
      have h400ne : y % 400 ≠ 0 := fun hh => h4c (by omega)
      have e4 : y / 4 = (y - 1) / 4 := ha h4c
      have e100 : y / 100 = (y - 1) / 100 := hb2 h100ne
      have e400 : y / 400 = (y - 1) / 400 := hc2 h400ne
      omega

theorem dayNumber_year_start_le {y y2 : ℕ} (h : y ≤ y2) :
    dayNumber y 1 1 ≤ dayNumber y2 1 1 := by
  unfold dayNumber
  rw [daysBeforeMonth_one, daysBeforeMonth_one]
  have h4 : (y - 1) / 4 ≤ (y2 - 1) / 4 := Nat.div_le_div_right (by omega)
  have h400 : (y - 1) / 400 ≤ (y2 - 1) / 400 := Nat.div_le_div_right (by omega)
  have h100d : (y2 - 1) / 100 - (y - 1) / 100 ≤ (y2 - 1) - (y - 1) := by omega
  omega

theorem daysBeforeMonth_le {y a b : ℕ} (h1 : 1 ≤ a) (hab : a ≤ b) (hb : b ≤ 12) :
    daysBeforeMonth y a ≤ daysBeforeMonth y b := by
  rcases Nat.eq_or_lt_of_le hab with he | hlt
  · subst he; exact le_refl _
  · have := daysBefore_add_dim_le y b a h1 hlt hb
    omega

theorem dayNumber_lt_of_date_lt {y mo d y2 mo2 d2 : ℕ}
    (hy : 1 ≤ y)
    (hmo1 : 1 ≤ mo) (hmo12 : mo ≤ 12) (hmo1b : 1 ≤ mo2) (hmo12b : mo2 ≤ 12)
    (hd1 : 1 ≤ d) (hdim : d ≤ daysInMonth y mo) (hd1b : 1 ≤ d2)
    (hlex : y < y2 ∨ (y = y2 ∧ mo < mo2) ∨ (y = y2 ∧ mo = mo2 ∧ d < d2)) :
    dayNumber y mo d < dayNumber y2 mo2 d2 := by
  rcases hlex with hylt | ⟨hye, hmolt⟩ | ⟨hye, hmoe, hdlt⟩
  · have h1 : dayNumber y mo d < dayNumber (y + 1) 1 1 := by
      rw [dayNumber_year_succ y hy]
      have hdimy := daysBefore_dim_le_year y mo hmo1 hmo12
      unfold dayNumber
      rw [daysBeforeMonth_one]
      cases hL : isLeapYear y <;> simp only [hL, if_true, if_false] at hdimy ⊢ <;> omega
    have h2 : dayNumber (y + 1) 1 1 ≤ dayNumber y2 1 1 := dayNumber_year_start_le (by omega)
    have h3 : dayNumber y2 1 1 ≤ dayNumber y2 mo2 d2 := by
      unfold dayNumber
      rw [daysBeforeMonth_one]
      omega
    omega
  · subst hye
    have hadd := daysBefore_add_dim_le y mo2 mo hmo1 hmolt hmo12b
    unfold dayNumber
    omega
  · subst hye; subst hmoe
    unfold dayNumber
    omega

theorem key_lex {t u : NDt}
    (h1t : 1 ≤ t.month) (h2t : t.month ≤ 12) (h3t : 1 ≤ t.day) (h4t : t.day ≤ 31)
    (h5t : t.hour ≤ 23) (h6t : t.minute ≤ 59)
    (h1u : 1 ≤ u.month) (h2u : u.month ≤ 12) (h3u : 1 ≤ u.day) (h4u : u.day ≤ 31)
    (h5u : u.hour ≤ 23) (h6u : u.minute ≤ 59)
    (h : t.key < u.key) :
    t.year < u.year ∨ (t.year = u.year ∧ t.month < u.month) ∨
    (t.year = u.year ∧ t.month = u.month ∧ t.day < u.day) ∨
    (t.year = u.year ∧ t.month = u.month ∧ t.day = u.day ∧ t.hour < u.hour) ∨
    (t.year = u.year ∧ t.month = u.month ∧ t.day = u.day ∧ t.hour = u.hour ∧
      t.minute < u.minute) := by
  rw [key_eta, key_eta] at h
  omega

theorem civilMicros_lt {a b : ADt} (hva : a.Valid) (hvnb : b.nd.Valid)
    (h : a.nd.key < b.nd.key) : civilMicros a < civilMicros b := by
  obtain ⟨⟨hy1, hmo1, hmo2, hd1, hdim, hh, hmi⟩, hs, hus⟩ := hva
  obtain ⟨hy1b, hmo1b, hmo2b, hd1b, hdimb, hhb, hmib⟩ := hvnb
  have hd31 : a.nd.day ≤ 31 := le_trans hdim (daysInMonth_le_31 _ _)
  have hd31b : b.nd.day ≤ 31 := le_trans hdimb (daysInMonth_le_31 _ _)
  have hlex := key_lex hmo1 hmo2 hd1 hd31 hh hmi hmo1b hmo2b hd1b hd31b hhb hmib h
  unfold civilMicros
  rcases hlex with hc | ⟨he1, hc⟩ | ⟨he1, he2, hc⟩ | ⟨he1, he2, he3, hc⟩ |
    ⟨he1, he2, he3, he4, hc⟩
  · have hdn := dayNumber_lt_of_date_lt hy1 hmo1 hmo2 hmo1b hmo2b hd1 hdim hd1b (Or.inl hc)
    omega
  · have hdn := dayNumber_lt_of_date_lt hy1 hmo1 hmo2 hmo1b hmo2b hd1 hdim hd1b
      (Or.inr (Or.inl ⟨he1, hc⟩))
    omega
  · have hdn := dayNumber_lt_of_date_lt hy1 hmo1 hmo2 hmo1b hmo2b hd1 hdim hd1b
      (Or.inr (Or.inr ⟨he1, he2, hc⟩))
    omega
  · rw [he1, he2, he3]
    omega
  · rw [he1, he2, he3, he4]
    omega

theorem monthLoop_fuel_mono (e : CronEntry) (start : NDt) :
    ∀ (k : ℕ) (s : LoopSt) (r : NDt),
      monthLoop e start k s = some r → monthLoop e start (k + 1) s = some r := by
  intro k
  induction k with
  | zero =>
    intro s r hr
    exact absurd hr (by simp [monthLoop])
  | succ n ih =>
    intro s r hr
    rw [monthLoop] at hr ⊢
    try dsimp only at hr ⊢
    by_cases hc : index_of_nearest_number e.months s.mo < ((e.months.length : ℤ))
    · rw [if_pos hc] at hr ⊢
      by_cases hm : e.months.getD (index_of_nearest_number e.months s.mo).toNat 0 ≠ start.month
      · rw [if_pos hm] at hr ⊢
        try dsimp only at hr ⊢
        rcases hmm : e.merge_days_and_days_of_week s.y
            (e.months.getD (index_of_nearest_number e.months s.mo).toNat 0) none
            with _ | ⟨d0, rest⟩ <;> rw [hmm] at hr
        · exact ih _ _ hr
        · exact hr
      · rw [if_neg hm] at hr ⊢
        try dsimp only at hr ⊢
        by_cases hph : s.ph = true
        · rw [if_pos hph] at hr ⊢
          rcases hmm : e.merge_days_and_days_of_week s.y
              (e.months.getD (index_of_nearest_number e.months s.mo).toNat 0) none
              with _ | ⟨d0, rest⟩ <;> rw [hmm] at hr
          · exact ih _ _ hr
          · exact hr
        · rw [if_neg hph] at hr ⊢
          exact hr
    · rw [if_neg hc] at hr ⊢
      try dsimp only at hr ⊢
      rcases hmm : e.merge_days_and_days_of_week (s.y + 1) (e.months.headD 0) none
          with _ | ⟨d0, rest⟩ <;> rw [hmm] at hr
      · exact ih _ _ hr
      · exact hr

/-- C9: `_next_wallclock_datetime` always terminates: the search is exactly
its month/year loop run with an iteration budget of `max(maxYears, 0) * 12`
(each pass, including a retry on an empty day merge, consumes one unit), an
exhausted budget returns `None` (in particular any `maxYears ≤ 0` gives
`None` immediately), a successful result never needs more than the budget
(extra fuel does not change it), and a `None` search ends the iterator's
emitted sequence: the next pull is `none`, no error. -/
theorem c9_termination (tz : Tz) (e : CronEntry) (Y : ℤ) :
    (∀ start : NDt, next_wallclock_datetime start e Y =
        monthLoop e start ((max Y 0).toNat * 12) (preMonthState start e)) ∧
    (∀ (start : NDt) (s : LoopSt), monthLoop e start 0 s = none) ∧
    (∀ (start : NDt) (k : ℕ) (s : LoopSt) (r : NDt),
        monthLoop e start k s = some r → monthLoop e start (k + 1) s = some r) ∧
    (Y ≤ 0 → ∀ start : NDt, next_wallclock_datetime start e Y = none) ∧
    (∀ (st : IterSt) (fuel : ℕ),
        next_wallclock_datetime (iterAdjust tz e.is_wildcard st).1.nd e Y = none →
        iterNext tz e Y (fuel + 1) st = none) := by
  refine ⟨fun _ => rfl, fun _ _ => rfl,
    fun start k s r => monthLoop_fuel_mono e start k s r, ?_, ?_⟩
  · intro hY start
    unfold next_wallclock_datetime
    rw [max_eq_right hY]
    rfl
  · intro st fuel hnone
    rw [iterNext, iterBody]
    try dsimp only
    rw [hnone]

theorem c9_witness :
    next_wallclock_datetime ⟨2024, 5, 1, 0, 0⟩
      ⟨[0], [12], [1], [1], [0], false, false, false, false⟩ 0 = none ∧
    iterNext (fixedTz 0) ⟨[0], [12], [1], [1], [0], false, false, false, false⟩ 0 1
      ⟨⟨⟨2024, 5, 1, 0, 0⟩, 0, 0, false⟩, ⟨⟨2024, 5, 1, 0, 0⟩, 0, 0, false⟩, none⟩ = none := by
  have h := c9_termination (fixedTz 0) ⟨[0], [12], [1], [1], [0], false, false, false, false⟩ 0
  exact ⟨h.2.2.2.1 (le_refl 0) _, h.2.2.2.2 _ 0 (by rfl)⟩

theorem delta_const (tz : Tz) (k : ℤ) (hconst : ∀ t, tz.offsetOf t = k) (t : ADt) :
    delta_seconds_between_fold tz t = 0 := by
  unfold delta_seconds_between_fold tsMicros civilMicros
  rw [hconst, hconst]
  try dsimp only
  omega

theorem iterAdjust_const (tz : Tz) (k : ℤ) (hconst : ∀ t, tz.offsetOf t = k)
    (w : Bool) (st : IterSt) : iterAdjust tz w st = (st.start, st.goto) := by
  unfold iterAdjust
  rw [delta_const tz k hconst]
  rw [if_neg (by omega)]

theorem iterNext_const_step (tz : Tz) (k : ℤ) (hconst : ∀ t, tz.offsetOf t = k)
    (e : CronEntry) (Y : ℤ) (hwf : EntryWF e) (s : ADt)
    (hv : s.nd.Valid) (hs2 : s.second ≤ 59) (hmu : s.micro ≤ 999999) (fuel : ℕ) :
    iterNext tz e Y (fuel + 1) ⟨s, s, none⟩ =
      match next_wallclock_datetime s.nd e Y with
      | none => none
      | some r =>
          some (⟨r, 0, 0, false⟩, ⟨⟨r, 0, 0, false⟩, ⟨r, 0, 0, false⟩, none⟩) := by
  rw [iterNext, iterBody]
  try dsimp only
  rw [iterAdjust_const tz k hconst]
  try dsimp only
  rcases hn : next_wallclock_datetime s.nd e Y with _ | r
  · rfl
  · have hspec := (nwc_spec e s.nd Y hwf hv).1 r hn
    have hts : tsMicros tz s < tsMicros tz ⟨r, 0, 0, false⟩ := by
      have hciv : civilMicros s < civilMicros ⟨r, 0, 0, false⟩ :=
        civilMicros_lt ⟨hv, hs2, hmu⟩ hspec.1 hspec.2.2.1
      unfold tsMicros
      rw [hconst, hconst]
      omega
    try dsimp only
    have hcond : ¬ (tsMicros tz (⟨r, 0, 0, false⟩ : ADt) ≤ tsMicros tz s) := by omega
    rw [if_neg hcond]
    rw [delta_const tz k hconst]
    rw [if_neg (show ¬ ((0 : ℤ) < 0) by omega)]
    rfl

theorem nwcChain_front (e : CronEntry) (Y : ℤ) :
    ∀ (n : ℕ) (s : NDt), nwcChain e Y s (n + 1) =
      match next_wallclock_datetime s e Y with
      | none => none
      | some r => nwcChain e Y r n := by
  intro n
  induction n with
  | zero =>
    intro s
    show (nwcChain e Y s 0).bind _ = _
    rcases hn : next_wallclock_datetime s e Y with _ | r
    · show (next_wallclock_datetime s e Y).bind _ = _
      rw [hn]
      rfl
    · show (next_wallclock_datetime s e Y).bind _ = _
      rw [hn]
      rfl
  | succ m ih =>
    intro s
    show (nwcChain e Y s (m + 1)).bind _ = _
    rw [ih s]
    rcases hn : next_wallclock_datetime s e Y with _ | r
    · rfl
    · rfl

theorem iter_const_chain (tz : Tz) (k : ℤ) (hconst : ∀ t, tz.offsetOf t = k)
    (e : CronEntry) (Y : ℤ) (hwf : EntryWF e) :
    ∀ (n : ℕ) (s : ADt), s.nd.Valid → s.second = 0 → s.micro = 0 → ∀ fuel : ℕ,
    iterNth tz e Y (fuel + 1) n ⟨s, s, none⟩ =
      match nwcChain e Y s.nd n with
      | none => none
      | some r =>
          some (⟨r, 0, 0, false⟩, ⟨⟨r, 0, 0, false⟩, ⟨r, 0, 0, false⟩, none⟩) := by
  intro n
  induction n with
  | zero =>
    intro s hv hs hmu fuel
    show iterNext tz e Y (fuel + 1) ⟨s, s, none⟩ = _
    rw [iterNext_const_step tz k hconst e Y hwf s hv (by omega) (by omega) fuel]
    rfl
  | succ m ih =>
    intro s hv hs hmu fuel
    show (match iterNext tz e Y (fuel + 1) ⟨s, s, none⟩ with
      | none => none
      | some (_, st2) => iterNth tz e Y (fuel + 1) m st2) = _
    rw [iterNext_const_step tz k hconst e Y hwf s hv (by omega) (by omega) fuel]
    rw [nwcChain_front e Y m s.nd]
    rcases hn : next_wallclock_datetime s.nd e Y with _ | r
    · rfl
    · have hspec := (nwc_spec e s.nd Y hwf hv).1 r hn
      exact ih ⟨r, 0, 0, false⟩ hspec.1 rfl rfl fuel

/-- C4: with a fixed-offset timezone (constant UTC offset, so no DST
transition anywhere) the iterator's fold-forcing, gap-snapping and prepared
jump never alter a candidate: starting from the normalized cursor (which
`iter` builds with second and microsecond 0 and no prepared jump), the n-th
pulled value is exactly the n-th element of the chain of successive
`_next_wallclock_datetime` results — same civil reading, second 0,
microsecond 0, fold 0 — and the sequence ends exactly when the chain does. -/
theorem c4_fixed_offset_iter (tz : Tz) (k : ℤ) (e : CronEntry) (Y : ℤ)
    (hconst : ∀ t, tz.offsetOf t = k) (hwf : EntryWF e) (s : ADt)
    (hv : s.nd.Valid) (hsec : s.second = 0) (hmic : s.micro = 0) (n fuel : ℕ) :
    (∀ start : ADt, iterInit tz start =
        ⟨iterInitStart tz start, iterInitStart tz start, none⟩ ∧
        (iterInitStart tz start).second = 0 ∧ (iterInitStart tz start).micro = 0) ∧
    iterNth tz e Y (fuel + 1) n ⟨s, s, none⟩ =
      match nwcChain e Y s.nd n with
      | none => none
      | some r =>
          some (⟨r, 0, 0, false⟩, ⟨⟨r, 0, 0, false⟩, ⟨r, 0, 0, false⟩, none⟩) :=
  ⟨fun _ => ⟨rfl, rfl, rfl⟩, iter_const_chain tz k hconst e Y hwf n s hv hsec hmic fuel⟩

theorem c4_witness :
    iterNth (fixedTz 3600) ⟨[0], [12], [1], [1], [0, 1, 2, 3, 4, 5, 6, 7],
        false, false, false, true⟩ 2 1 1
      ⟨⟨⟨2024, 5, 1, 0, 0⟩, 0, 0, false⟩, ⟨⟨2024, 5, 1, 0, 0⟩, 0, 0, false⟩, none⟩ =
      match nwcChain ⟨[0], [12], [1], [1], [0, 1, 2, 3, 4, 5, 6, 7],
          false, false, false, true⟩ 2 ⟨2024, 5, 1, 0, 0⟩ 1 with
      | none => none
      | some r =>
          some (⟨r, 0, 0, false⟩, ⟨⟨r, 0, 0, false⟩, ⟨r, 0, 0, false⟩, none⟩) :=
  (c4_fixed_offset_iter (fixedTz 3600) 3600
    ⟨[0], [12], [1], [1], [0, 1, 2, 3, 4, 5, 6, 7], false, false, false, true⟩ 2
    (fun _ => rfl) (by decide) ⟨⟨2024, 5, 1, 0, 0⟩, 0, 0, false⟩ (by decide) rfl rfl 1 0).2

theorem nwcChain_valid (e : CronEntry) (Y : ℤ) (hwf : EntryWF e) :
    ∀ (n : ℕ) (s : NDt), s.Valid → ∀ p, nwcChain e Y s n = some p → p.Valid := by
  intro n
  induction n with
  | zero =>
    intro s hv p hp
    exact ((nwc_spec e s Y hwf hv).1 p hp).1
  | succ m ih =>
    intro s hv p hp
    have hp2 : (nwcChain e Y s m).bind (fun r => next_wallclock_datetime r e Y) = some p := hp
    rcases hc : nwcChain e Y s m with _ | q
    · rw [hc] at hp2
      exact absurd hp2 (by simp)
    · rw [hc] at hp2
      exact ((nwc_spec e q Y hwf (ih s hv q hc)).1 p hp2).1

/-- C5 (amended): for a fixed-offset timezone the claim holds: the instants
of the yielded values strictly increase, and the first yielded value's
instant is strictly greater than the normalized start's instant (the start
itself is never re-emitted, even on an exact schedule match). Without the
fixed-offset restriction the claim is false: a host timezone whose offset
function jumps backward can make a later pull's instant smaller (see the
counterexample). -/
theorem c5_instants_increase (tz : Tz) (k : ℤ) (e : CronEntry) (Y : ℤ)
    (hconst : ∀ t, tz.offsetOf t = k) (hwf : EntryWF e) (s : ADt)
    (hv : s.nd.Valid) (hsec : s.second = 0) (hmic : s.micro = 0) (fuel : ℕ) :
    (∀ v st2, iterNext tz e Y (fuel + 1) ⟨s, s, none⟩ = some (v, st2) →
        tsMicros tz s < tsMicros tz v) ∧
    (∀ n p q, iterNth tz e Y (fuel + 1) n ⟨s, s, none⟩ = some p →
        iterNth tz e Y (fuel + 1) (n + 1) ⟨s, s, none⟩ = some q →
        tsMicros tz p.1 < tsMicros tz q.1) := by
  constructor
  · intro v st2 hy
    rw [iterNext_const_step tz k hconst e Y hwf s hv (by omega) (by omega) fuel] at hy
    rcases hn : next_wallclock_datetime s.nd e Y with _ | r
    · rw [hn] at hy
      exact absurd hy (by simp)
    · rw [hn] at hy
      injection hy with h1
      rw [Prod.mk.injEq] at h1
      obtain ⟨hA, hB⟩ := h1
      rw [← hA]
      have hspec := (nwc_spec e s.nd Y hwf hv).1 r hn
      have hav : ADt.Valid s := ⟨hv, by omega, by omega⟩
      have hciv := @civilMicros_lt s ⟨r, 0, 0, false⟩ hav hspec.1 hspec.2.2.1
      unfold tsMicros
      rw [hconst, hconst]
      omega
  · intro n p q hp hq
    rw [iter_const_chain tz k hconst e Y hwf n s hv hsec hmic fuel] at hp
    rw [iter_const_chain tz k hconst e Y hwf (n + 1) s hv hsec hmic fuel] at hq
    rcases hc1 : nwcChain e Y s.nd n with _ | r1
    · rw [hc1] at hp
      exact absurd hp (by simp)
    · rw [hc1] at hp
      rcases hc2 : nwcChain e Y s.nd (n + 1) with _ | r2
      · rw [hc2] at hq
        exact absurd hq (by simp)
      · rw [hc2] at hq
        injection hp with hp1
        injection hq with hq1
        have hnn : next_wallclock_datetime r1 e Y = some r2 := by
          have h2 : (nwcChain e Y s.nd n).bind
              (fun r => next_wallclock_datetime r e Y) = some r2 := hc2
          rw [hc1] at h2
          exact h2
        have hr1v := nwcChain_valid e Y hwf n s.nd hv r1 hc1
        have hspec := (nwc_spec e r1 Y hwf hr1v).1 r2 hnn
        have hav : ADt.Valid ⟨r1, 0, 0, false⟩ :=
          ⟨hr1v, by dsimp only; omega, by dsimp only; omega⟩
        have hciv := @civilMicros_lt ⟨r1, 0, 0, false⟩ ⟨r2, 0, 0, false⟩ hav
          hspec.1 hspec.2.2.1
        rw [← hp1, ← hq1]
        try dsimp only
        unfold tsMicros
        rw [hconst, hconst]
        omega

theorem c5_witness :
    iterNext (fixedTz 3600) ⟨[0], [12], [1], [1], [0, 1, 2, 3, 4, 5, 6, 7],
        false, false, false, true⟩ 2 1
      ⟨⟨⟨2024, 5, 1, 0, 0⟩, 0, 0, false⟩, ⟨⟨2024, 5, 1, 0, 0⟩, 0, 0, false⟩, none⟩ =
      some (⟨⟨2025, 1, 1, 12, 0⟩, 0, 0, false⟩,
        ⟨⟨⟨2025, 1, 1, 12, 0⟩, 0, 0, false⟩, ⟨⟨2025, 1, 1, 12, 0⟩, 0, 0, false⟩, none⟩) ∧
    tsMicros (fixedTz 3600) ⟨⟨2024, 5, 1, 0, 0⟩, 0, 0, false⟩ <
      tsMicros (fixedTz 3600) ⟨⟨2025, 1, 1, 12, 0⟩, 0, 0, false⟩ := by
  have h := c5_instants_increase (fixedTz 3600) 3600
    ⟨[0], [12], [1], [1], [0, 1, 2, 3, 4, 5, 6, 7], false, false, false, true⟩ 2
    (fun _ => rfl) (by decide) ⟨⟨2024, 5, 1, 0, 0⟩, 0, 0, false⟩ (by decide) rfl rfl 0
  have he : iterNext (fixedTz 3600) ⟨[0], [12], [1], [1], [0, 1, 2, 3, 4, 5, 6, 7],
      false, false, false, true⟩ 2 1
      ⟨⟨⟨2024, 5, 1, 0, 0⟩, 0, 0, false⟩, ⟨⟨2024, 5, 1, 0, 0⟩, 0, 0, false⟩, none⟩ =
      some (⟨⟨2025, 1, 1, 12, 0⟩, 0, 0, false⟩,
        ⟨⟨⟨2025, 1, 1, 12, 0⟩, 0, 0, false⟩,
          ⟨⟨2025, 1, 1, 12, 0⟩, 0, 0, false⟩, none⟩) := by decide
  exact ⟨he, h.1 _ _ he⟩

set_option maxRecDepth 10000 in
/-- C5 as literally stated is refuted by a legal (if pathological) host
timezone whose UTC offset jumps +7200 s at civil 02:00: iterating the
schedule `* * * * *` from 2021-03-14T01:58 (fold 0), the first two pulled
values have timestamps 63751283940000000 µs and 63751276800000000 µs — the
second instant is smaller, so the yielded instants are not strictly
increasing. -/
theorem c5_counterexample :
    (from_expression "* * * * *").toOption.map (fun e =>
      ((iterNth tzJump e 50 5 0 (iterInit tzJump ⟨⟨2021, 3, 14, 1, 58⟩, 0, 0, false⟩)).map
          (fun p => tsMicros tzJump p.1),
       (iterNth tzJump e 50 5 1 (iterInit tzJump ⟨⟨2021, 3, 14, 1, 58⟩, 0, 0, false⟩)).map
          (fun p => tsMicros tzJump p.1))) =
      some (some 63751283940000000, some 63751276800000000) ∧
    ¬ ((63751283940000000 : ℤ) < 63751276800000000) :=
  ⟨by decide, by decide⟩

set_option maxRecDepth 10000 in
/-- C8: parsing `0 13 */999 1,4,7,10 3` gives day set `{1}` with the day
wildcard flag set (so days are AND-combined with the Wednesday-only
day-of-week set: the merge for January 2025, whose 1st is a Wednesday, is
exactly `[1]`), and iterating from 2020-09-24T00:00 yields
2025-01-01T13:00 as the first value. -/
theorem c8_concrete :
    (from_expression "0 13 */999 1,4,7,10 3").toOption.map (fun e =>
      (e.days, e.day_star, e.merge_days_and_days_of_week 2025 1 none,
       (iterNth (fixedTz 0) e 50 5 0
           (iterInit (fixedTz 0) ⟨⟨2020, 9, 24, 0, 0⟩, 0, 0, false⟩)).map
         (fun p => p.1))) =
      some ([1], true, [1], some ⟨⟨2025, 1, 1, 13, 0⟩, 0, 0, false⟩) := by decide
